import Mathlib

/-!
Shallow embedding of `src/data_diff/diff_tables.py`, the hash-based bisection
table differencing engine, together with theorems settling the specification
claims about it.

Modelling conventions:
* Machine rows are tuples in canonical column order (key first); we model them
  as `Int × List Int`.
* The Database capability (drivers, SQL rendering) is external to the
  repository; each query method carries a doc comment starting with
  `Modelled from the spec:` explaining the modelled query semantics.
* Python exceptions (`ValueError`, `AssertionError`) are modelled as `none`
  or as the `error` outcome; generator recursion is modelled with explicit
  fuel, `outOfFuel` standing for a run that has not finished within the fuel.
* The `stats` dictionary, shared across the recursion of one run (§4.5.3),
  is modelled by threading its `table1_count` entry as explicit state; the
  embedding takes no position on how instances of `TableDiffer` obtain it.
-/

/-- A diff sign: `+` marks a row present on the left side only, `-` one present
on the right side only. -/
inductive Sign where
  | plus
  | minus
deriving DecidableEq, Repr

/-- A materialized row in canonical column order: the value of the key column
first, then the values of the remaining relevant columns (spec §3, inv. 4). -/
abbrev Row : Type := Int × List Int

/-- The key of a row: the first element of the canonical tuple
(`diff_tables.py:151`, "The first item is always the key"). -/
def rowKey (r : Row) : Int := r.1

/-- A diff event `(sign, row)` as yielded by the differ. -/
abbrev Event : Type := Sign × Row

/-- Shallow embedding of class `TableSegment` (`diff_tables.py:34`).  The
`database`/`table_path`/column-name fields only parametrize the SQL sent to the
external Database capability; they are replaced by `rows`: the canonical column
projection of the underlying table's rows, key first, as the (spec-modelled)
database returns them.  The claims under study use segments without time
bounds, so `min_time`/`max_time` (always `None` there) are not represented. -/
structure TableSegment where
  rows : List Row
  start_key : Option Int := none
  end_key : Option Int := none
deriving DecidableEq, Repr

namespace TableSegment

/-- The key-range filter built by `_make_key_range` (`diff_tables.py:50`):
`start_key ≤ key` when `start_key` is set, and `key < end_key` when `end_key`
is set. -/
def keyInRange (s : TableSegment) (r : Row) : Bool :=
  (match s.start_key with
   | none => true
   | some a => decide (a ≤ rowKey r)) &&
  (match s.end_key with
   | none => true
   | some b => decide (rowKey r < b))

/-- Modelled from the spec: the Database capability (§4.2) evaluates the
`Select` built by `get_values` (`diff_tables.py:75`) by returning the rows of
the table that satisfy the segment's key-range filter, projected to the
canonical columns. -/
def get_values (s : TableSegment) : List Row :=
  s.rows.filter s.keyInRange

/-- Modelled from the spec: `Checksum` (§4.1) is an order-independent aggregate
that is a reliable equality test for the rows it covers, and SQL aggregates
over an empty segment return NULL, so `count_and_checksum`
(`diff_tables.py:116`) yields `(0, none)` there (§4.3).  The collision-free
checksum is modelled by the multiset of in-range rows itself. -/
def count_and_checksum (s : TableSegment) : Nat × Option (Multiset Row) :=
  let v := s.rows.filter s.keyInRange
  (v.length, if v.isEmpty then none else some (v : Multiset Row))

/-- Modelled from the spec: `query_key_range` (`diff_tables.py:131`) asks the
database for `MIN(key), MAX(key)` over the segment; the NULL answer on an
empty segment, which the source turns into a `ValueError`, is modelled as
`none`. -/
def query_key_range (s : TableSegment) : Option (Int × Int) :=
  match (s.rows.filter s.keyInRange).map rowKey with
  | [] => none
  | k :: ks => some (ks.foldl min k, ks.foldl max k)

/-- `is_bounded` (`diff_tables.py:141`): both key bounds are set. -/
def is_bounded (s : TableSegment) : Bool :=
  s.start_key.isSome && s.end_key.isSome

end TableSegment

/-- Number of elements of Python `range(start, stop, step)` for `step ≠ 0`:
`max 0 ⌈(stop − start) / step⌉`. -/
def pyRangeLen (start stop step : Int) : Nat :=
  if 0 < step then ((stop - start + step - 1).fdiv step).toNat
  else ((start - stop + (0 - step) - 1).fdiv (0 - step)).toNat

/-- Python `range(start, stop, step)` as a list; `none` models the `ValueError`
raised on `step = 0`. -/
def pythonRange (start stop step : Int) : Option (List Int) :=
  if step = 0 then none
  else some ((List.range (pyRangeLen start stop step)).map
    (fun i : Nat => start + (i : Int) * step))

/-- `split_space` (`diff_tables.py:29`):
`range(start, end, (size + 1) // (count + 1))[1 : count + 1]`, with Python's
floor division and the `ValueError` of a zero step surfaced as `none`. -/
def split_space (start stop : Int) (count : Nat) : Option (List Int) :=
  (pythonRange start stop ((stop - start + 1).fdiv ((count : Int) + 1))).map
    (fun l => (l.drop 1).take count)

namespace TableSegment

/-- `choose_checkpoints` (`diff_tables.py:80`): asserts `is_bounded` (failure
modelled by `none`) and delegates to `split_space`. -/
def choose_checkpoints (s : TableSegment) (count : Nat) : Option (List Int) :=
  match s.start_key, s.end_key with
  | some a, some b => split_space a b count
  | _, _ => none

/-- Truthiness of an optional integer in Python: `None` and `0` are falsy. -/
def pyTruthy : Option Int → Bool
  | none => false
  | some x => decide (x ≠ 0)

/-- `segment_by_checkpoints` (`diff_tables.py:85`).  The range assertion runs
only when both bounds are truthy (hence not when a bound is `None` — or `0`);
its failure is modelled as `none`.  The checkpoints are sorted and the segment
is split at the positions `start_key :: sorted ++ [end_key]`. -/
def segment_by_checkpoints (s : TableSegment) (checkpoints : List Int) :
    Option (List TableSegment) :=
  if pyTruthy s.start_key && pyTruthy s.end_key &&
      !(checkpoints.all fun c =>
        decide (s.start_key.getD 0 ≤ c) && decide (c < s.end_key.getD 0)) then
    none
  else
    let sorted := checkpoints.insertionSort (fun x y => x ≤ y)
    let positions := s.start_key :: (sorted.map some ++ [s.end_key])
    let ranges := positions.zip positions.tail
    some (ranges.map fun p => { s with start_key := p.1, end_key := p.2 })

end TableSegment

/-- `diff_sets` (`diff_tables.py:146`).  Python set construction is modelled by
list deduplication; the `defaultdict` grouping followed by
`sorted(d.items(), key=...)` becomes: for each distinct key in ascending
order, emit first the `+` entries and then the `-` entries for that key. -/
def diff_sets (a b : List Row) : List Event :=
  let s1 := a.dedup
  let s2 := b.dedup
  let plus := s1.filter fun r => decide (r ∉ s2)
  let minus := s2.filter fun r => decide (r ∉ s1)
  let keys := (plus.map rowKey ++ minus.map rowKey).dedup
  (keys.insertionSort fun x y => x ≤ y).flatMap fun k =>
    (plus.filter fun r => decide (rowKey r = k)).map (fun r => (Sign.plus, r)) ++
      (minus.filter fun r => decide (rowKey r = k)).map (fun r => (Sign.minus, r))

/-- Outcome of the (fuelled) differ: a finished run with the final
`table1_count` statistic and the emitted events, a Python exception, or fuel
exhaustion (standing for a run that has not terminated within the fuel). -/
inductive DiffOutcome where
  | ok (stats : Nat) (events : List Event)
  | error
  | outOfFuel
deriving DecidableEq, Repr

/-- Shallow embedding of class `TableDiffer` (`diff_tables.py:164`): the two
knobs that drive the algorithm.  `threaded`/`max_threadpool_size`/`debug` only
select the execution strategy of the fan-out (spec §4.4: results are collected
in input order either way) and do not affect the value semantics; the
class-level `stats` dict is modelled as threaded state (spec §4.5.3). -/
structure TableDiffer where
  bisection_factor : Nat := 32
  bisection_threshold : Nat := 16384
deriving DecidableEq, Repr

namespace TableDiffer

/-- Runs the per-pair differ over the zipped child segments in child order
(`diff_tables.py:240`: the fan-out materializes every child stream and the
merge preserves child order), threading the statistics state and concatenating
the emitted events. -/
def run_pairs (pairFn : TableSegment → TableSegment → Nat → DiffOutcome) :
    List (TableSegment × TableSegment) → Nat → List Event → DiffOutcome
  | [], stats, acc => .ok stats acc
  | p :: ps, stats, acc =>
    match pairFn p.1 p.2 stats with
    | .ok stats' ev => run_pairs pairFn ps stats' (acc ++ ev)
    | .error => .error
    | .outOfFuel => .outOfFuel

/-- `TableDiffer._diff_tables` (`diff_tables.py:248`), the per-segment-pair
comparison, parameterized by the recursion `bisectFn` it calls on a checksum
mismatch.  Both sides' `count_and_checksum` are obtained; if both counts are
zero the code asserts both checksums are null (assert failure = `error`) and
returns no events; at level 1 the left count is added to `table1_count`; then
the checksums are compared and a mismatch recurses with
`max_rows = max(count1, count2)`. -/
def diff_tables_pair
    (bisectFn : TableSegment → TableSegment → Nat → Option Int → Nat → DiffOutcome)
    (t1 t2 : TableSegment) (level : Nat) (stats : Nat) : DiffOutcome :=
  let c1 := t1.count_and_checksum
  let c2 := t2.count_and_checksum
  if c1.1 = 0 ∧ c2.1 = 0 then
    if c1.2 = none ∧ c2.2 = none then .ok stats [] else .error
  else
    let stats' := if level = 1 then stats + c1.1 else stats
    if c1.2 ≠ c2.2 then bisectFn t1 t2 level (some (max c1.1 c2.1 : Nat)) stats'
    else .ok stats' []

/-- The segmentation step of `_bisect_and_diff_tables` (`diff_tables.py:232`):
choose `bisection_factor - 1` checkpoints from the left segment, split both
sides by the same checkpoints, and pair up corresponding children (`safezip`
length assertion included).  `none` models any exception raised on the way
(zero checkpoint step, out-of-range assertion, uneven `safezip`). -/
def make_child_pairs (d : TableDiffer) (t1 t2 : TableSegment) :
    Option (List (TableSegment × TableSegment)) :=
  match t1.choose_checkpoints (d.bisection_factor - 1) with
  | none => none
  | some checkpoints =>
    match t1.segment_by_checkpoints checkpoints,
        t2.segment_by_checkpoints checkpoints with
    | some seg1, some seg2 =>
      if seg1.length = seg2.length then some (seg1.zip seg2) else none
    | _, _ => none

/-- `TableDiffer._bisect_and_diff_tables` (`diff_tables.py:216`) with explicit
fuel.  Asserts both segments bounded; defaults `max_rows` to the key-range
width; below the bisection threshold it materializes both sides and set-diffs
locally; otherwise it segments both sides (`make_child_pairs`) and runs the
per-pair differ on each child pair at `level + 1`, merging the child streams
in child order. -/
def bisect_and_diff_tables (d : TableDiffer) :
    Nat → TableSegment → TableSegment → Nat → Option Int → Nat → DiffOutcome
  | 0, _, _, _, _, _ => .outOfFuel
  | fuel + 1, t1, t2, level, max_rows, stats =>
    if !(t1.is_bounded && t2.is_bounded) then .error
    else
      let mr : Int := max_rows.getD (t1.end_key.getD 0 - t1.start_key.getD 0)
      if mr < (d.bisection_threshold : Int) then
        .ok stats (diff_sets t1.get_values t2.get_values)
      else
        match make_child_pairs d t1 t2 with
        | none => .error
        | some pairs =>
          run_pairs
            (fun a b s =>
              diff_tables_pair (bisect_and_diff_tables d fuel) a b (level + 1) s)
            pairs stats []

/-- `TableDiffer.diff_tables` (`diff_tables.py:187`): validates the bisection
parameters, discovers the key bounds of both sides concurrently, rebuilds both
segments over `[min(mins), max(maxs) + 1)` and starts the bisection. -/
def diff_tables (d : TableDiffer) (t1 t2 : TableSegment) (fuel : Nat)
    (stats : Nat) : DiffOutcome :=
  if d.bisection_factor ≥ d.bisection_threshold then .error
  else if d.bisection_factor < 2 then .error
  else
    match t1.query_key_range, t2.query_key_range with
    | some r1, some r2 =>
      let start_key := min r1.1 r2.1
      let end_key := max r1.2 r2.2 + 1
      bisect_and_diff_tables d fuel
        { t1 with start_key := some start_key, end_key := some end_key }
        { t2 with start_key := some start_key, end_key := some end_key }
        0 none stats
    | _, _ => .error

end TableDiffer

/-! ### Specification-side definitions used by the claim statements -/

/-- Rows present in `a` (as a set: deduplicated) but not in `b`. -/
def plusRows (a b : List Row) : List Row :=
  a.dedup.filter fun r => decide (r ∉ b)

/-- The canonical list of diff events for row collections `a`, `b`: one `+`
event per row of `a` missing from `b`, then one `-` event per row of `b`
missing from `a`.  Its length is the size of the symmetric difference of the
two sets. -/
def symmDiffEvents (a b : List Row) : List Event :=
  (plusRows a b).map (fun r => (Sign.plus, r)) ++
    (plusRows b a).map (fun r => (Sign.minus, r))

/-- Order index of a sign: `+` sorts before `-`. -/
def signIdx : Sign → Nat
  | .plus => 0
  | .minus => 1

/-- Event order: ascending key and, on equal keys, `+` before `-`.  A list
sorted by this relation has the events of each key contiguous, the key groups
in ascending order, and all `+` before all `-` inside each group. -/
def eventLE (e1 e2 : Event) : Prop :=
  rowKey e1.2 < rowKey e2.2 ∨
    (rowKey e1.2 = rowKey e2.2 ∧ signIdx e1.1 ≤ signIdx e2.1)

/-- The checkpoint step exactly as claim C3 states it: the CEILING of
`(size + 1) / (n + 1)`, written as `-((-(size + 1)) fdiv (n + 1))`. -/
def claimC3_step (a b : Int) (n : Nat) : Int :=
  -((-(b - a + 1)).fdiv ((n : Int) + 1))

/-- The checkpoint list exactly as claim C3 states it: `startKey + step,
startKey + 2·step, …`, truncated to the first `n` values strictly below
`endKey`, with the ceiling step. -/
def claimC3_checkpoints (a b : Int) (n : Nat) : List Int :=
  ((List.range n).map fun i : Nat => a + ((i : Int) + 1) * claimC3_step a b n).takeWhile
    fun c => decide (c < b)

/-- The step the code actually uses: `(size + 1) // (n + 1)` with Python FLOOR
division (`diff_tables.py:31`). -/
def floor_step (a b : Int) (n : Nat) : Int :=
  (b - a + 1).fdiv ((n : Int) + 1)

/-- The checkpoint list with the floor step: `startKey + step, startKey +
2·step, …`, truncated to the first `n` values strictly below `endKey`. -/
def floor_checkpoints (a b : Int) (n : Nat) : List Int :=
  ((List.range n).map fun i : Nat => a + ((i : Int) + 1) * floor_step a b n).takeWhile
    fun c => decide (c < b)

/-- Adds `s` to the final statistics of a finished outcome: the outcome of a
run started with `table1_count = s` instead of `0`. -/
def shiftOutcome (s : Nat) : DiffOutcome → DiffOutcome
  | .ok s' ev => .ok (s + s') ev
  | .error => .error
  | .outOfFuel => .outOfFuel

/-- A marker recursion callback: plugging it into `diff_tables_pair` makes an
outcome of `outOfFuel` the unambiguous sign that the per-pair logic reached the
checksum-mismatch branch and recursed (neither branch of `diff_tables_pair`
itself ever returns `outOfFuel`). -/
def markerBisect : TableSegment → TableSegment → Nat → Option Int → Nat → DiffOutcome :=
  fun _ _ _ _ _ => .outOfFuel

/-- The child segment of `t` over the key range `[p, q)`: what
`segment_by_checkpoints` builds for each consecutive position pair via
`self.new(start_key=s, end_key=e)` (`diff_tables.py:97`). -/
def subseg (t : TableSegment) (p q : Int) : TableSegment :=
  { t with start_key := some p, end_key := some q }

/-! ### Helper lemmas on ranges and Python floor division -/

theorem take_range_aux (s n m : Nat) :
    (List.range' s n).take m = List.range' s (min m n) := by
  rw [List.range'_eq_map_range, List.range'_eq_map_range, ← List.map_take,
    List.take_range]

theorem drop_one_range (n : Nat) :
    (List.range n).drop 1 = List.range' 1 (n - 1) := by
  cases n with
  | zero => rfl
  | succ k =>
    rw [List.range_succ_eq_map]
    simp [List.range'_eq_map_range, Nat.add_comm]

theorem takeWhile_map_range' (g : Nat → Int) (p : Int → Bool) (cut : Nat)
    (h : ∀ i, p (g i) = decide (i < cut)) :
    ∀ (n s : Nat), ((List.range' s n).map g).takeWhile p
      = (List.range' s (min n (cut - s))).map g := by
  intro n
  induction n with
  | zero => intro s; simp
  | succ n ih =>
    intro s
    rw [List.range'_succ, List.map_cons, List.takeWhile_cons, h s]
    by_cases hs : s < cut
    · have h1 : cut - s = (cut - (s + 1)) + 1 := by omega
      have h2 : min (n + 1) (cut - s) = min n (cut - (s + 1)) + 1 := by omega
      rw [if_pos (by simpa using hs), ih (s + 1), h2, List.range'_succ, List.map_cons]
    · have h0 : cut - s = 0 := by omega
      rw [if_neg (by simpa using hs), h0]
      simp

theorem lt_pyRangeLen_iff (a b step : Int) (hstep : 1 ≤ step) (j : Nat) :
    a + (j : Int) * step < b ↔ j < pyRangeLen a b step := by
  have h0 : (0 : Int) < step := by omega
  rw [pyRangeLen, if_pos h0, Int.lt_toNat, Int.fdiv_eq_ediv _ (le_of_lt h0)]
  constructor
  · intro h
    have h1 : ((j : Int) + 1) * step ≤ b - a + step - 1 := by nlinarith
    have := (Int.le_ediv_iff_mul_le h0).mpr h1
    omega
  · intro h
    have h1 : (j : Int) + 1 ≤ (b - a + step - 1) / step := by omega
    have h2 := (Int.le_ediv_iff_mul_le h0).mp h1
    nlinarith

theorem split_space_eq_floor_checkpoints (a b : Int) (n : Nat)
    (hstep : 1 ≤ floor_step a b n) :
    split_space a b n = some (floor_checkpoints a b n) := by
  have hne : floor_step a b n ≠ 0 := by omega
  have hs : (b - a + 1).fdiv ((n : Int) + 1) = floor_step a b n := rfl
  rw [split_space, pythonRange, hs, if_neg hne]
  have key : ∀ j : Nat,
      (fun c => decide (c < b)) (a + (j : Int) * floor_step a b n)
        = decide (j < pyRangeLen a b (floor_step a b n)) := by
    intro j
    simp only [decide_eq_decide]
    exact lt_pyRangeLen_iff a b _ hstep j
  rw [Option.map_some']
  congr 1
  rw [floor_checkpoints]
  have hmap : (List.range n).map (fun i : Nat => a + ((i : Int) + 1) * floor_step a b n)
      = (List.range' 1 n).map (fun j : Nat => a + (j : Int) * floor_step a b n) := by
    rw [List.range'_eq_map_range, List.map_map]
    refine List.map_congr_left ?_
    intro i _
    simp only [Function.comp_apply]
    push_cast
    ring
  rw [hmap, takeWhile_map_range' _ _ (pyRangeLen a b (floor_step a b n)) key n 1,
    ← List.map_drop, drop_one_range, ← List.map_take, take_range_aux]

/-! ### Claim C3 — checkpoint formula -/

/-- Claim C3 as frozen is false: the code uses Python FLOOR division for the
step, not the ceiling of the claim.  For the bounded segment `[0, 10)` and
`n = 3` the code returns `[2, 4, 6]` (step `⌊11/4⌋ = 2`) while the claimed
ceiling formula gives `[3, 6, 9]` (step `⌈11/4⌉ = 3`). -/
theorem claim_C3_counterexample :
    TableSegment.choose_checkpoints
        { rows := [], start_key := some 0, end_key := some 10 } 3 = some [2, 4, 6] ∧
      claimC3_checkpoints 0 10 3 = [3, 6, 9] ∧
      TableSegment.choose_checkpoints
          { rows := [], start_key := some 0, end_key := some 10 } 3 ≠
        some (claimC3_checkpoints 0 10 3) := by
  refine ⟨by decide, by decide, by decide⟩

/-- Claim C3, amended: for every bounded `TableSegment` and every `n`,
`choose_checkpoints n` returns `startKey + step, startKey + 2·step, …`
truncated to the first `n` values strictly less than `endKey`, where
`step = ⌊(size + 1) / (n + 1)⌋` (FLOOR division, `size = endKey − startKey`),
provided that step is at least 1 (a zero step raises `ValueError`); on an
unbounded segment the `is_bounded` assertion fires instead. -/
theorem claim_C3 (s : TableSegment) (n : Nat) :
    (∀ a b : Int, s.start_key = some a → s.end_key = some b →
      1 ≤ floor_step a b n →
      s.choose_checkpoints n = some (floor_checkpoints a b n)) ∧
    (s.start_key = none ∨ s.end_key = none → s.choose_checkpoints n = none) := by
  constructor
  · intro a b ha hb hstep
    rw [TableSegment.choose_checkpoints, ha, hb]
    exact split_space_eq_floor_checkpoints a b n hstep
  · intro h
    rw [TableSegment.choose_checkpoints]
    rcases h with h | h
    · rw [h]
    · rw [h]
      cases s.start_key <;> rfl

/-- Witness for `claim_C3` at the bounded segment `[1, 11)` with `n = 4`:
the floor step is `⌊11/5⌋ = 2` and the checkpoints are `[3, 5, 7, 9]`. -/
theorem claim_C3_witness :
    TableSegment.choose_checkpoints
        { rows := [], start_key := some 1, end_key := some 11 } 4 =
      some (floor_checkpoints 1 11 4) :=
  (claim_C3 { rows := [], start_key := some 1, end_key := some 11 } 4).1 1 11 rfl
    rfl (by decide)

/-! ### Claims C10 and C7 — segmentation -/

/-- Claim C10: `segment_by_checkpoints` validates its checkpoints only when
both bounds are Python-truthy; for a bounded segment whose `start_key` is `0`
the validation is skipped entirely (the call never raises, whatever the
checkpoints), and out-of-range checkpoints are accepted, producing child
segments with inverted key ranges — here `[0,10)` split at `20` yields a child
`[20, 10)` whose start exceeds its end. -/
theorem claim_C10 :
    (∀ (rows : List Row) (e : Int) (cps : List Int),
      ∃ ts, TableSegment.segment_by_checkpoints
        { rows := rows, start_key := some 0, end_key := some e } cps = some ts) ∧
    (∃ ts t, TableSegment.segment_by_checkpoints
          { rows := [], start_key := some 0, end_key := some 10 } [20] = some ts ∧
        t ∈ ts ∧ ∃ u v : Int, t.start_key = some u ∧ t.end_key = some v ∧ v < u) := by
  constructor
  · intro rows e cps
    rw [TableSegment.segment_by_checkpoints]
    simp [TableSegment.pyTruthy]
  · exact ⟨[{ rows := [], start_key := some 0, end_key := some 20 },
        { rows := [], start_key := some 20, end_key := some 10 }],
      { rows := [], start_key := some 20, end_key := some 10 }, by decide, by decide,
      20, 10, rfl, rfl, by decide⟩

theorem zip_tail_fst {α : Type} (p : List α) :
    (p.zip p.tail).map Prod.fst = p.dropLast := by
  induction p with
  | nil => rfl
  | cons x rest ih =>
    cases rest with
    | nil => rfl
    | cons y t =>
      simp only [List.tail_cons, List.zip_cons_cons, List.map_cons] at ih ⊢
      rw [ih]
      rfl

theorem zip_tail_snd {α : Type} (p : List α) :
    (p.zip p.tail).map Prod.snd = p.tail := by
  apply List.map_snd_zip
  cases p <;> simp

/-- Claim C7: for every bounded segment `[a, b)` and checkpoints all lying in
`[a, b)`, `segment_by_checkpoints` succeeds and returns `n + 1` child segments
over the same table whose `[start_key, end_key)` intervals are contiguous and
join `a → c₁ → … → cₙ → b` for the ascending sort `c₁ ≤ … ≤ cₙ` of the
checkpoints. -/
theorem claim_C7 (s : TableSegment) (a b : Int) (cps : List Int)
    (ha : s.start_key = some a) (hb : s.end_key = some b)
    (hin : ∀ c ∈ cps, a ≤ c ∧ c < b) :
    ∃ (ts : List TableSegment) (cs : List Int),
      s.segment_by_checkpoints cps = some ts ∧
      cs.Perm cps ∧ List.Sorted (fun x y : Int => x ≤ y) cs ∧
      ts.length = cps.length + 1 ∧
      ts.map TableSegment.start_key = some a :: cs.map some ∧
      ts.map TableSegment.end_key = cs.map some ++ [some b] ∧
      ∀ t ∈ ts, t.rows = s.rows := by
  have hall : (cps.all fun c =>
      decide (s.start_key.getD 0 ≤ c) && decide (c < s.end_key.getD 0)) = true := by
    rw [List.all_eq_true]
    intro c hc
    rw [ha, hb]
    simp only [Option.getD_some, Bool.and_eq_true, decide_eq_true_eq]
    exact hin c hc
  rw [TableSegment.segment_by_checkpoints, hall]
  simp only [Bool.not_true, Bool.and_false]
  refine ⟨_, cps.insertionSort (fun x y => x ≤ y), rfl,
    List.perm_insertionSort _ _, List.sorted_insertionSort _ _, ?_, ?_, ?_, ?_⟩
  · rw [List.length_map, List.length_zip, List.length_tail]
    simp [List.length_insertionSort]
  · rw [List.map_map]
    have : (TableSegment.start_key ∘ fun p : Option Int × Option Int =>
        { s with start_key := p.1, end_key := p.2 }) = Prod.fst := rfl
    rw [this, zip_tail_fst, ha, hb]
    have : (some a :: ((cps.insertionSort (fun x y => x ≤ y)).map some ++ [some b]))
        = (some a :: (cps.insertionSort (fun x y => x ≤ y)).map some) ++ [some b] := by
      simp
    rw [this, List.dropLast_concat]
  · rw [List.map_map]
    have : (TableSegment.end_key ∘ fun p : Option Int × Option Int =>
        { s with start_key := p.1, end_key := p.2 }) = Prod.snd := rfl
    rw [this, zip_tail_snd, ha, hb]
    rfl
  · intro t ht
    rw [List.mem_map] at ht
    obtain ⟨p, _, hp⟩ := ht
    rw [← hp]

/-- Witness for `claim_C7`: splitting the bounded segment `[1, 9)` at the
(unsorted, in-range) checkpoints `[5, 3]`. -/
theorem claim_C7_witness :
    ∃ (ts : List TableSegment) (cs : List Int),
      TableSegment.segment_by_checkpoints
          { rows := [(4, [])], start_key := some 1, end_key := some 9 } [5, 3]
        = some ts ∧
      cs.Perm [5, 3] ∧ List.Sorted (fun x y : Int => x ≤ y) cs ∧
      ts.length = 3 ∧
      ts.map TableSegment.start_key = some 1 :: cs.map some ∧
      ts.map TableSegment.end_key = cs.map some ++ [some 9] ∧
      ∀ t ∈ ts, t.rows = [(4, [])] :=
  claim_C7 { rows := [(4, [])], start_key := some 1, end_key := some 9 } 1 9 [5, 3]
    rfl rfl (by decide)

/-! ### Claims C4 and C5 — per-segment-pair decision logic -/

theorem count_and_checksum_fst (s : TableSegment) :
    s.count_and_checksum.1 = (s.rows.filter s.keyInRange).length := rfl

theorem count_and_checksum_snd (s : TableSegment) :
    s.count_and_checksum.2 = if (s.rows.filter s.keyInRange).isEmpty then none
      else some ((s.rows.filter s.keyInRange : List Row) : Multiset Row) := rfl

theorem checksum_none_iff_count_zero (s : TableSegment) :
    s.count_and_checksum.2 = none ↔ s.count_and_checksum.1 = 0 := by
  rw [count_and_checksum_fst, count_and_checksum_snd]
  by_cases h : (s.rows.filter s.keyInRange).isEmpty
  · rw [if_pos h]
    rw [List.isEmpty_iff] at h
    simp [h]
  · rw [if_neg h]
    rw [List.isEmpty_iff] at h
    exact iff_of_false (Option.some_ne_none _)
      (fun hc => h (List.length_eq_zero.mp hc))

/-- Claim C4: the per-segment-pair decision logic.  Given the two
`(count, checksum)` results: if both counts are zero, the pair yields no diff
events and the `assert checksum1 is None and checksum2 is None` passes (the
outcome is a clean return, not an exception); otherwise, if the checksums
differ, the pair recurses into bisect-and-diff with
`max_rows = max(count1, count2)` (with the level-1 statistics update applied
first); otherwise (equal checksums) the pair yields no diff events. -/
theorem claim_C4
    (bisectFn : TableSegment → TableSegment → Nat → Option Int → Nat → DiffOutcome)
    (t1 t2 : TableSegment) (level stats : Nat) :
    (t1.count_and_checksum.1 = 0 ∧ t2.count_and_checksum.1 = 0 →
      TableDiffer.diff_tables_pair bisectFn t1 t2 level stats = .ok stats []) ∧
    (¬ (t1.count_and_checksum.1 = 0 ∧ t2.count_and_checksum.1 = 0) →
      t1.count_and_checksum.2 ≠ t2.count_and_checksum.2 →
      TableDiffer.diff_tables_pair bisectFn t1 t2 level stats
        = bisectFn t1 t2 level
            (some ((max t1.count_and_checksum.1 t2.count_and_checksum.1 : Nat) : Int))
            (if level = 1 then stats + t1.count_and_checksum.1 else stats)) ∧
    (¬ (t1.count_and_checksum.1 = 0 ∧ t2.count_and_checksum.1 = 0) →
      t1.count_and_checksum.2 = t2.count_and_checksum.2 →
      TableDiffer.diff_tables_pair bisectFn t1 t2 level stats
        = .ok (if level = 1 then stats + t1.count_and_checksum.1 else stats) []) := by
  refine ⟨?_, ?_, ?_⟩
  · intro h
    have h1 := (checksum_none_iff_count_zero t1).mpr h.1
    have h2 := (checksum_none_iff_count_zero t2).mpr h.2
    rw [TableDiffer.diff_tables_pair, if_pos h, if_pos ⟨h1, h2⟩]
  · intro h hne
    rw [TableDiffer.diff_tables_pair, if_neg h, if_pos hne]
  · intro h heq
    rw [TableDiffer.diff_tables_pair, if_neg h, if_neg (by simpa using heq)]

/-- Witness for `claim_C4`: an empty pair over `[0, 2)` returns cleanly with no
events, through the first branch. -/
theorem claim_C4_witness :
    TableDiffer.diff_tables_pair markerBisect
        { rows := [], start_key := some 0, end_key := some 2 }
        { rows := [(7, [])], start_key := some 0, end_key := some 1 } 0 5
      = .ok 5 [] :=
  (claim_C4 markerBisect
      { rows := [], start_key := some 0, end_key := some 2 }
      { rows := [(7, [])], start_key := some 0, end_key := some 1 } 0 5).1
    (by decide)

/-- Claim C5 as frozen is false: a null checksum on one side does NOT make the
differ return before the checksum comparison.  Left segment `[0, 2)` is empty,
so its checksum is null; the right one holds a row, so the counts are not both
zero, the code reaches `checksum1 != checksum2` comparing null against a
value, and recurses (observed here through the marker callback). -/
theorem claim_C5_counterexample :
    (TableSegment.count_and_checksum
        { rows := [], start_key := some 0, end_key := some 2 }).2 = none ∧
      TableDiffer.diff_tables_pair markerBisect
          { rows := [], start_key := some 0, end_key := some 2 }
          { rows := [(1, [])], start_key := some 0, end_key := some 2 } 2 0
        = .outOfFuel := by
  exact ⟨by decide, by decide⟩

/-- Claim C5, amended: the differ short-circuits and returns before the
checksum comparison only when BOTH sides return a null checksum (equivalently,
both counts are zero); when exactly one side's checksum is null, that null IS
compared against the other side's checksum, they compare unequal, and the
differ recurses into bisect-and-diff. -/
theorem claim_C5
    (bisectFn : TableSegment → TableSegment → Nat → Option Int → Nat → DiffOutcome)
    (t1 t2 : TableSegment) (level stats : Nat) :
    (t1.count_and_checksum.2 = none ∧ t2.count_and_checksum.2 = none →
      TableDiffer.diff_tables_pair bisectFn t1 t2 level stats = .ok stats []) ∧
    (t1.count_and_checksum.2 = none ∧ t2.count_and_checksum.2 ≠ none →
      TableDiffer.diff_tables_pair bisectFn t1 t2 level stats
        = bisectFn t1 t2 level
            (some ((max t1.count_and_checksum.1 t2.count_and_checksum.1 : Nat) : Int))
            (if level = 1 then stats + t1.count_and_checksum.1 else stats)) ∧
    (t1.count_and_checksum.2 ≠ none ∧ t2.count_and_checksum.2 = none →
      TableDiffer.diff_tables_pair bisectFn t1 t2 level stats
        = bisectFn t1 t2 level
            (some ((max t1.count_and_checksum.1 t2.count_and_checksum.1 : Nat) : Int))
            (if level = 1 then stats + t1.count_and_checksum.1 else stats)) := by
  refine ⟨?_, ?_, ?_⟩
  · intro h
    exact (claim_C4 bisectFn t1 t2 level stats).1
      ⟨(checksum_none_iff_count_zero t1).mp h.1, (checksum_none_iff_count_zero t2).mp h.2⟩
  · intro h
    refine (claim_C4 bisectFn t1 t2 level stats).2.1 ?_ ?_
    · intro hc
      exact h.2 ((checksum_none_iff_count_zero t2).mpr hc.2)
    · rw [h.1]
      exact fun hc => h.2 hc.symm
  · intro h
    refine (claim_C4 bisectFn t1 t2 level stats).2.1 ?_ ?_
    · intro hc
      exact h.1 ((checksum_none_iff_count_zero t1).mpr hc.1)
    · rw [h.2]
      exact h.1

/-- Witness for `claim_C5`: both sides empty over `[3, 5)` short-circuit to a
clean empty return. -/
theorem claim_C5_witness :
    TableDiffer.diff_tables_pair markerBisect
        { rows := [(9, [])], start_key := some 3, end_key := some 5 }
        { rows := [], start_key := some 3, end_key := some 5 } 1 4
      = .ok 4 [] :=
  (claim_C5 markerBisect
      { rows := [(9, [])], start_key := some 3, end_key := some 5 }
      { rows := [], start_key := some 3, end_key := some 5 } 1 4).1
    (by decide)

/-! ### Claim C6 — bound discovery -/

/-- Claim C6: under a legal configuration, `diff_tables` queries the key range
of both sides; if either query comes back null it raises a fatal error and no
diff stream is produced; otherwise it rebuilds both segments with exactly
`startKey = min(leftMin, rightMin)` and `endKey = max(leftMax, rightMax) + 1`
and recurses into bisect-and-diff on them. -/
theorem claim_C6 (d : TableDiffer) (t1 t2 : TableSegment) (fuel stats : Nat)
    (hf : 2 ≤ d.bisection_factor) (ht : d.bisection_factor < d.bisection_threshold) :
    (t1.query_key_range = none ∨ t2.query_key_range = none →
      d.diff_tables t1 t2 fuel stats = .error) ∧
    (∀ mn1 mx1 mn2 mx2 : Int,
      t1.query_key_range = some (mn1, mx1) → t2.query_key_range = some (mn2, mx2) →
      d.diff_tables t1 t2 fuel stats =
        TableDiffer.bisect_and_diff_tables d fuel
          { t1 with start_key := some (min mn1 mn2), end_key := some (max mx1 mx2 + 1) }
          { t2 with start_key := some (min mn1 mn2), end_key := some (max mx1 mx2 + 1) }
          0 none stats) := by
  have hv1 : ¬ d.bisection_factor ≥ d.bisection_threshold := by omega
  have hv2 : ¬ d.bisection_factor < 2 := by omega
  constructor
  · intro h
    rw [TableDiffer.diff_tables, if_neg hv1, if_neg hv2]
    rcases h with h | h
    · rw [h]
    · rw [h]
      cases t1.query_key_range <;> rfl
  · intro mn1 mx1 mn2 mx2 h1 h2
    rw [TableDiffer.diff_tables, if_neg hv1, if_neg hv2, h1, h2]

/-- Witness for `claim_C6`: two one-row tables with keys 4 and 7 are rebuilt
over `[4, 8)`. -/
theorem claim_C6_witness :
    TableDiffer.diff_tables { bisection_factor := 2, bisection_threshold := 16 }
        { rows := [(7, [1])] } { rows := [(4, [2])] } 9 0
      = TableDiffer.bisect_and_diff_tables
          { bisection_factor := 2, bisection_threshold := 16 } 9
          { rows := [(7, [1])], start_key := some 4, end_key := some 8 }
          { rows := [(4, [2])], start_key := some 4, end_key := some 8 } 0 none 0 :=
  (claim_C6 { bisection_factor := 2, bisection_threshold := 16 }
      { rows := [(7, [1])] } { rows := [(4, [2])] } 9 0 (by decide) (by decide)).2
    7 7 4 4 (by decide) (by decide)

/-! ### Claim C2 — local set-diff ordering -/

theorem flatMap_congr_aux {α β : Type} (l : List α) (f g : α → List β)
    (h : ∀ x ∈ l, f x = g x) : l.flatMap f = l.flatMap g := by
  induction l with
  | nil => rfl
  | cons x xs ih =>
    rw [List.flatMap_cons, List.flatMap_cons, h x (by simp),
      ih (fun y hy => h y (by simp [hy]))]

theorem flatMap_filter_key_perm (ks : List Int) :
    ∀ l : List Row, ks.Nodup → (∀ r ∈ l, rowKey r ∈ ks) →
      (ks.flatMap fun k => l.filter fun r => decide (rowKey r = k)).Perm l := by
  induction ks with
  | nil =>
    intro l _ hcov
    have hl : l = [] :=
      List.eq_nil_iff_forall_not_mem.mpr (fun r hr => by simpa using hcov r hr)
    simp [hl]
  | cons k ks ih =>
    intro l hnd hcov
    rw [List.flatMap_cons]
    have hk : k ∉ ks := (List.nodup_cons.mp hnd).1
    have hks : ∀ k' ∈ ks,
        (l.filter fun r => decide (rowKey r = k'))
          = ((l.filter fun r => !decide (rowKey r = k)).filter
              fun r => decide (rowKey r = k')) := by
      intro k' hk'
      rw [List.filter_filter]
      refine List.filter_congr ?_
      intro r _
      have hkk : k' ≠ k := by
        intro hc
        rw [hc] at hk'
        exact hk hk'
      by_cases hr : rowKey r = k'
      · simp [hr, hkk]
      · simp [hr]
    rw [flatMap_congr_aux ks _ _ hks]
    have hcov' : ∀ r ∈ l.filter fun r => !decide (rowKey r = k), rowKey r ∈ ks := by
      intro r hr
      rw [List.mem_filter] at hr
      have h1 := hcov r hr.1
      have h2 : rowKey r ≠ k := by simpa using hr.2
      rcases List.mem_cons.mp h1 with h | h
      · exact absurd h h2
      · exact h
    exact ((ih _ (List.nodup_cons.mp hnd).2 hcov').append_left _).trans
      (List.filter_append_perm _ l)

theorem grouped_perm (plus minus : List Row) :
    (((plus.map rowKey ++ minus.map rowKey).dedup.insertionSort
        fun x y => x ≤ y).flatMap fun k =>
        (plus.filter fun r => decide (rowKey r = k)).map (fun r => (Sign.plus, r)) ++
          (minus.filter fun r => decide (rowKey r = k)).map
            (fun r => (Sign.minus, r))).Perm
      (plus.map (fun r => (Sign.plus, r)) ++ minus.map (fun r => (Sign.minus, r))) := by
  have hsp := List.perm_insertionSort (fun x y : Int => x ≤ y)
    ((plus.map rowKey ++ minus.map rowKey).dedup)
  have hnd : ((plus.map rowKey ++ minus.map rowKey).dedup.insertionSort
      fun x y => x ≤ y).Nodup :=
    hsp.symm.nodup (List.nodup_dedup _)
  have hcovP : ∀ r ∈ plus, rowKey r ∈
      ((plus.map rowKey ++ minus.map rowKey).dedup.insertionSort fun x y => x ≤ y) := by
    intro r hr
    rw [hsp.mem_iff, List.mem_dedup, List.mem_append]
    exact Or.inl (List.mem_map_of_mem _ hr)
  have hcovM : ∀ r ∈ minus, rowKey r ∈
      ((plus.map rowKey ++ minus.map rowKey).dedup.insertionSort fun x y => x ≤ y) := by
    intro r hr
    rw [hsp.mem_iff, List.mem_dedup, List.mem_append]
    exact Or.inr (List.mem_map_of_mem _ hr)
  refine (List.flatMap_append_perm _ _ _).symm.trans (List.Perm.append ?_ ?_)
  · rw [← List.map_flatMap]
    exact (flatMap_filter_key_perm _ plus hnd hcovP).map _
  · rw [← List.map_flatMap]
    exact (flatMap_filter_key_perm _ minus hnd hcovM).map _

theorem plus_eq_plusRows (a b : List Row) :
    (a.dedup.filter fun r => decide (r ∉ b.dedup)) = plusRows a b := by
  rw [plusRows]
  refine List.filter_congr ?_
  intro r _
  simp [List.mem_dedup]

theorem diff_sets_eq (a b : List Row) :
    diff_sets a b =
      ((((a.dedup.filter fun r => decide (r ∉ b.dedup)).map rowKey ++
          (b.dedup.filter fun r => decide (r ∉ a.dedup)).map rowKey).dedup.insertionSort
        fun x y => x ≤ y).flatMap fun k =>
        ((a.dedup.filter fun r => decide (r ∉ b.dedup)).filter fun r =>
            decide (rowKey r = k)).map (fun r => (Sign.plus, r)) ++
          ((b.dedup.filter fun r => decide (r ∉ a.dedup)).filter fun r =>
            decide (rowKey r = k)).map (fun r => (Sign.minus, r))) := rfl

theorem diff_sets_perm (a b : List Row) :
    (diff_sets a b).Perm (symmDiffEvents a b) := by
  rw [diff_sets_eq, symmDiffEvents, ← plus_eq_plusRows a b, ← plus_eq_plusRows b a]
  exact grouped_perm _ _

theorem sorted_flatMap_groups (sk : List Int) (f : Int → List Event)
    (hlt : sk.Pairwise (fun x y => x < y))
    (hkey : ∀ k, ∀ e ∈ f k, rowKey e.2 = k)
    (hgrp : ∀ k, List.Pairwise eventLE (f k)) :
    List.Pairwise eventLE (sk.flatMap f) := by
  induction sk with
  | nil => simp
  | cons k ks ih =>
    rw [List.flatMap_cons, List.pairwise_append]
    refine ⟨hgrp k, ih (List.pairwise_cons.mp hlt).2, ?_⟩
    intro e he e' he'
    rw [List.mem_flatMap] at he'
    obtain ⟨k', hk', hin⟩ := he'
    left
    rw [hkey k e he, hkey k' e' hin]
    exact (List.pairwise_cons.mp hlt).1 k' hk'

theorem group_key (plus minus : List Row) (k : Int) (e : Event)
    (he : e ∈
      (plus.filter fun r => decide (rowKey r = k)).map (fun r => (Sign.plus, r)) ++
        (minus.filter fun r => decide (rowKey r = k)).map (fun r => (Sign.minus, r))) :
    rowKey e.2 = k := by
  rcases List.mem_append.mp he with h | h <;>
    · obtain ⟨r, hr, hre⟩ := List.mem_map.mp h
      rw [List.mem_filter] at hr
      rw [← hre]
      exact of_decide_eq_true hr.2

theorem group_pairwise (plus minus : List Row) (k : Int) :
    List.Pairwise eventLE
      ((plus.filter fun r => decide (rowKey r = k)).map (fun r => (Sign.plus, r)) ++
        (minus.filter fun r => decide (rowKey r = k)).map
          (fun r => (Sign.minus, r))) := by
  have hkP : ∀ e ∈ (plus.filter fun r => decide (rowKey r = k)).map
      (fun r => (Sign.plus, r)), rowKey e.2 = k ∧ e.1 = Sign.plus := by
    intro e he
    obtain ⟨r, hr, hre⟩ := List.mem_map.mp he
    rw [List.mem_filter] at hr
    exact ⟨by rw [← hre]; exact of_decide_eq_true hr.2, by rw [← hre]⟩
  have hkM : ∀ e ∈ (minus.filter fun r => decide (rowKey r = k)).map
      (fun r => (Sign.minus, r)), rowKey e.2 = k ∧ e.1 = Sign.minus := by
    intro e he
    obtain ⟨r, hr, hre⟩ := List.mem_map.mp he
    rw [List.mem_filter] at hr
    exact ⟨by rw [← hre]; exact of_decide_eq_true hr.2, by rw [← hre]⟩
  rw [List.pairwise_append]
  refine ⟨List.pairwise_of_forall_mem_list ?_, List.pairwise_of_forall_mem_list ?_, ?_⟩
  · intro e he e' he'
    right
    refine ⟨by rw [(hkP e he).1, (hkP e' he').1], ?_⟩
    rw [(hkP e he).2, (hkP e' he').2]
  · intro e he e' he'
    right
    refine ⟨by rw [(hkM e he).1, (hkM e' he').1], ?_⟩
    rw [(hkM e he).2, (hkM e' he').2]
  · intro e he e' he'
    right
    refine ⟨by rw [(hkP e he).1, (hkM e' he').1], ?_⟩
    rw [(hkP e he).2, (hkM e' he').2]
    exact Nat.zero_le _

theorem diff_sets_sorted (a b : List Row) :
    List.Sorted eventLE (diff_sets a b) := by
  rw [diff_sets_eq]
  have hs := List.sorted_insertionSort (fun x y : Int => x ≤ y)
    (((a.dedup.filter fun r => decide (r ∉ b.dedup)).map rowKey ++
      (b.dedup.filter fun r => decide (r ∉ a.dedup)).map rowKey).dedup)
  have hnd := (List.perm_insertionSort (fun x y : Int => x ≤ y)
    (((a.dedup.filter fun r => decide (r ∉ b.dedup)).map rowKey ++
      (b.dedup.filter fun r => decide (r ∉ a.dedup)).map rowKey).dedup)).symm.nodup
    (List.nodup_dedup _)
  have hlt : (((a.dedup.filter fun r => decide (r ∉ b.dedup)).map rowKey ++
      (b.dedup.filter fun r => decide (r ∉ a.dedup)).map rowKey).dedup.insertionSort
      fun x y => x ≤ y).Pairwise (fun x y => x < y) := by
    have hand := hs.and hnd
    exact hand.imp (fun h => lt_of_le_of_ne h.1 h.2)
  exact sorted_flatMap_groups _ _ hlt (group_key _ _) (group_pairwise _ _)

theorem symmDiffEvents_nodup (a b : List Row) : (symmDiffEvents a b).Nodup := by
  have hinjP : Function.Injective (fun r : Row => ((Sign.plus, r) : Event)) := by
    intro r r' h
    simpa using h
  have hinjM : Function.Injective (fun r : Row => ((Sign.minus, r) : Event)) := by
    intro r r' h
    simpa using h
  refine List.Nodup.append
    (List.Nodup.map hinjP (List.Nodup.filter _ (List.nodup_dedup a)))
    (List.Nodup.map hinjM (List.Nodup.filter _ (List.nodup_dedup b))) ?_
  intro e he hem
  obtain ⟨r, _, hre⟩ := List.mem_map.mp he
  obtain ⟨r', _, hre'⟩ := List.mem_map.mp hem
  rw [← hre'] at hre
  exact Sign.noConfusion (congrArg Prod.fst hre)

theorem mem_symmDiffEvents_plus (a b : List Row) (t : Row) :
    (Sign.plus, t) ∈ symmDiffEvents a b ↔ t ∈ a ∧ t ∉ b := by
  rw [symmDiffEvents, List.mem_append]
  constructor
  · intro h
    rcases h with h | h
    · obtain ⟨r, hr, hre⟩ := List.mem_map.mp h
      rw [plusRows, List.mem_filter, List.mem_dedup] at hr
      have : r = t := congrArg Prod.snd hre
      rw [← this]
      exact ⟨hr.1, of_decide_eq_true hr.2⟩
    · obtain ⟨r, _, hre⟩ := List.mem_map.mp h
      exact Sign.noConfusion (congrArg Prod.fst hre)
  · intro h
    refine Or.inl (List.mem_map.mpr ⟨t, ?_, rfl⟩)
    rw [plusRows, List.mem_filter, List.mem_dedup]
    exact ⟨h.1, decide_eq_true h.2⟩

theorem mem_symmDiffEvents_minus (a b : List Row) (t : Row) :
    (Sign.minus, t) ∈ symmDiffEvents a b ↔ t ∈ b ∧ t ∉ a := by
  rw [symmDiffEvents, List.mem_append]
  constructor
  · intro h
    rcases h with h | h
    · obtain ⟨r, _, hre⟩ := List.mem_map.mp h
      exact Sign.noConfusion (congrArg Prod.fst hre)
    · obtain ⟨r, hr, hre⟩ := List.mem_map.mp h
      rw [plusRows, List.mem_filter, List.mem_dedup] at hr
      have : r = t := congrArg Prod.snd hre
      rw [← this]
      exact ⟨hr.1, of_decide_eq_true hr.2⟩
  · intro h
    refine Or.inr (List.mem_map.mpr ⟨t, ?_, rfl⟩)
    rw [plusRows, List.mem_filter, List.mem_dedup]
    exact ⟨h.1, decide_eq_true h.2⟩

/-- Claim C2: `diff_sets` emits `(+, t)` exactly for the tuples in the first
collection but not the second and `(-, t)` exactly for the converse (each
exactly once: the output has no duplicates and is a permutation of the
canonical symmetric-difference event list), and the output is sorted by
(key, sign): events of equal key are contiguous, key groups appear in
ascending order, and within a key group every `+` precedes every `-`. -/
theorem claim_C2 (a b : List Row) :
    (∀ t : Row, (Sign.plus, t) ∈ diff_sets a b ↔ t ∈ a ∧ t ∉ b) ∧
    (∀ t : Row, (Sign.minus, t) ∈ diff_sets a b ↔ t ∈ b ∧ t ∉ a) ∧
    (diff_sets a b).Nodup ∧
    (diff_sets a b).Perm (symmDiffEvents a b) ∧
    List.Sorted eventLE (diff_sets a b) := by
  refine ⟨?_, ?_, ?_, diff_sets_perm a b, diff_sets_sorted a b⟩
  · intro t
    rw [(diff_sets_perm a b).mem_iff]
    exact mem_symmDiffEvents_plus a b t
  · intro t
    rw [(diff_sets_perm a b).mem_iff]
    exact mem_symmDiffEvents_minus a b t
  · exact (diff_sets_perm a b).symm.nodup (symmDiffEvents_nodup a b)

/-! ### Statistics threading is additive in the starting counter -/

theorem shift_shift (s u : Nat) (x : DiffOutcome) :
    shiftOutcome s (shiftOutcome u x) = shiftOutcome (s + u) x := by
  cases x with
  | ok s' ev => simp [shiftOutcome, Nat.add_assoc]
  | error => rfl
  | outOfFuel => rfl

theorem run_pairs_shift
    (pairFn : TableSegment → TableSegment → Nat → DiffOutcome)
    (hpf : ∀ x y u, pairFn x y u = shiftOutcome u (pairFn x y 0)) :
    ∀ (ps : List (TableSegment × TableSegment)) (s : Nat) (acc : List Event),
      TableDiffer.run_pairs pairFn ps s acc
        = shiftOutcome s (TableDiffer.run_pairs pairFn ps 0 acc) := by
  intro ps
  induction ps with
  | nil => intro s acc; rfl
  | cons p ps ih =>
    intro s acc
    rw [TableDiffer.run_pairs, TableDiffer.run_pairs, hpf p.1 p.2 s]
    cases hp : pairFn p.1 p.2 0 with
    | ok δ ev =>
      simp only [shiftOutcome]
      rw [ih (s + δ) (acc ++ ev), ih δ (acc ++ ev), ← shift_shift]
      rfl
    | error => rfl
    | outOfFuel => rfl

theorem diff_tables_pair_shift
    (bf : TableSegment → TableSegment → Nat → Option Int → Nat → DiffOutcome)
    (hbf : ∀ x y level mr u, bf x y level mr u = shiftOutcome u (bf x y level mr 0))
    (t1 t2 : TableSegment) (level s : Nat) :
    TableDiffer.diff_tables_pair bf t1 t2 level s
      = shiftOutcome s (TableDiffer.diff_tables_pair bf t1 t2 level 0) := by
  simp only [TableDiffer.diff_tables_pair]
  by_cases h0 : t1.count_and_checksum.1 = 0 ∧ t2.count_and_checksum.1 = 0
  · rw [if_pos h0, if_pos h0]
    by_cases hn : t1.count_and_checksum.2 = none ∧ t2.count_and_checksum.2 = none
    · rw [if_pos hn, if_pos hn]
      rfl
    · rw [if_neg hn, if_neg hn]
      rfl
  · rw [if_neg h0, if_neg h0]
    by_cases hne : t1.count_and_checksum.2 ≠ t2.count_and_checksum.2
    · rw [if_pos hne, if_pos hne, hbf t1 t2 level _
        (if level = 1 then s + t1.count_and_checksum.1 else s),
        hbf t1 t2 level _ (if level = 1 then 0 + t1.count_and_checksum.1 else 0),
        shift_shift]
      by_cases hl : level = 1
      · simp [hl]
      · simp [hl]
    · rw [if_neg hne, if_neg hne]
      by_cases hl : level = 1
      · simp [shiftOutcome, hl]
      · simp [shiftOutcome, hl]

theorem bisect_succ (d : TableDiffer) (fuel : Nat) (t1 t2 : TableSegment)
    (level : Nat) (max_rows : Option Int) (stats : Nat) :
    TableDiffer.bisect_and_diff_tables d (fuel + 1) t1 t2 level max_rows stats =
      if !(t1.is_bounded && t2.is_bounded) then .error
      else if max_rows.getD (t1.end_key.getD 0 - t1.start_key.getD 0)
          < (d.bisection_threshold : Int) then
        .ok stats (diff_sets t1.get_values t2.get_values)
      else
        match TableDiffer.make_child_pairs d t1 t2 with
        | none => .error
        | some pairs =>
          TableDiffer.run_pairs
            (fun a b s =>
              TableDiffer.diff_tables_pair
                (TableDiffer.bisect_and_diff_tables d fuel) a b (level + 1) s)
            pairs stats [] := rfl

theorem bisect_shift (d : TableDiffer) :
    ∀ (fuel : Nat) (t1 t2 : TableSegment) (level : Nat) (mr : Option Int) (s : Nat),
      TableDiffer.bisect_and_diff_tables d fuel t1 t2 level mr s
        = shiftOutcome s (TableDiffer.bisect_and_diff_tables d fuel t1 t2 level mr 0) := by
  intro fuel
  induction fuel with
  | zero => intro t1 t2 level mr s; rfl
  | succ fuel ih =>
    intro t1 t2 level mr s
    rw [bisect_succ, bisect_succ]
    by_cases hbd : !(t1.is_bounded && t2.is_bounded)
    · rw [if_pos hbd, if_pos hbd]
      rfl
    · rw [if_neg hbd, if_neg hbd]
      by_cases hmr : mr.getD (t1.end_key.getD 0 - t1.start_key.getD 0)
          < (d.bisection_threshold : Int)
      · rw [if_pos hmr, if_pos hmr]
        rfl
      · rw [if_neg hmr, if_neg hmr]
        cases TableDiffer.make_child_pairs d t1 t2 with
        | none => rfl
        | some pairs =>
          exact run_pairs_shift _
            (fun x y u => diff_tables_pair_shift _ (fun x' y' l' m' u' =>
              ih x' y' l' m' u') x y _ u) pairs s []

theorem diff_tables_shift (d : TableDiffer) (t1 t2 : TableSegment)
    (fuel s : Nat) :
    d.diff_tables t1 t2 fuel s = shiftOutcome s (d.diff_tables t1 t2 fuel 0) := by
  rw [TableDiffer.diff_tables, TableDiffer.diff_tables]
  by_cases h1 : d.bisection_factor ≥ d.bisection_threshold
  · rw [if_pos h1, if_pos h1]
    rfl
  · rw [if_neg h1, if_neg h1]
    by_cases h2 : d.bisection_factor < 2
    · rw [if_pos h2, if_pos h2]
      rfl
    · rw [if_neg h2, if_neg h2]
      cases t1.query_key_range with
      | none => rfl
      | some r1 =>
        cases t2.query_key_range with
        | none => rfl
        | some r2 => exact bisect_shift d fuel _ _ 0 none s


/-! ### Interval partition lemmas -/

theorem between_eq_true (p q : Int) (r : Row) :
    ((decide (p ≤ rowKey r) && decide (rowKey r < q)) = true)
      ↔ (p ≤ rowKey r ∧ rowKey r < q) := by
  simp

theorem filter_interval_split (p0 p1 q : Int) (h01 : p0 ≤ p1) (h1q : p1 ≤ q) :
    ∀ l : List Row,
      ((l.filter fun r => decide (p0 ≤ rowKey r) && decide (rowKey r < p1)) ++
        (l.filter fun r => decide (p1 ≤ rowKey r) && decide (rowKey r < q))).Perm
      (l.filter fun r => decide (p0 ≤ rowKey r) && decide (rowKey r < q)) := by
  intro l
  induction l with
  | nil => exact List.Perm.refl _
  | cons r l ih =>
    simp only [List.filter_cons]
    by_cases h1 : p0 ≤ rowKey r ∧ rowKey r < p1
    · rw [if_pos ((between_eq_true p0 p1 r).mpr h1),
        if_neg (by rw [between_eq_true]; omega),
        if_pos ((between_eq_true p0 q r).mpr ⟨h1.1, by omega⟩)]
      exact (ih).cons r
    · by_cases h2 : p1 ≤ rowKey r ∧ rowKey r < q
      · rw [if_neg (by rw [between_eq_true]; omega),
          if_pos ((between_eq_true p1 q r).mpr h2),
          if_pos ((between_eq_true p0 q r).mpr ⟨by omega, h2.2⟩)]
        exact List.perm_middle.trans ((ih).cons r)
      · rw [if_neg (by rw [between_eq_true]; omega),
          if_neg (by rw [between_eq_true]; omega),
          if_neg (by rw [between_eq_true]; omega)]
        exact ih

theorem chain_zip_mem {α : Type} {R : α → α → Prop} :
    ∀ (l : List α) (x : α), List.Chain R x l →
      ∀ pq ∈ (x :: l).zip l, R pq.1 pq.2 := by
  intro l
  induction l with
  | nil =>
    intro x _ pq hpq
    simp at hpq
  | cons y t ih =>
    intro x hch pq hpq
    rw [List.zip_cons_cons, List.mem_cons] at hpq
    rcases hpq with h | h
    · rw [h]
      exact (List.chain_cons.mp hch).1
    · exact ih y (List.chain_cons.mp hch).2 pq h

theorem chain_le_last : ∀ (ys : List Int) (x q : Int),
    List.Chain (fun u v : Int => u ≤ v) x (ys ++ [q]) → x ≤ q := by
  intro ys
  induction ys with
  | nil =>
    intro x q h
    exact (List.chain_cons.mp h).1
  | cons y ys ih =>
    intro x q h
    rw [List.cons_append] at h
    exact le_trans (List.chain_cons.mp h).1 (ih y q (List.chain_cons.mp h).2)

theorem chain_parts_perm (l : List Row) :
    ∀ (cs : List Int) (p0 q : Int),
      List.Chain (fun u v : Int => u ≤ v) p0 (cs ++ [q]) →
      (((p0 :: (cs ++ [q])).zip (cs ++ [q])).flatMap fun pq =>
          l.filter fun r => decide (pq.1 ≤ rowKey r) && decide (rowKey r < pq.2)).Perm
        (l.filter fun r => decide (p0 ≤ rowKey r) && decide (rowKey r < q)) := by
  intro cs
  induction cs with
  | nil =>
    intro p0 q _
    simp only [List.nil_append, List.zip_cons_cons, List.zip_nil_right,
      List.flatMap_cons, List.flatMap_nil, List.append_nil]
    exact List.Perm.refl _
  | cons c cs ih =>
    intro p0 q hch
    rw [List.cons_append] at hch
    have h0c : p0 ≤ c := (List.chain_cons.mp hch).1
    have hrest : List.Chain (fun u v : Int => u ≤ v) c (cs ++ [q]) :=
      (List.chain_cons.mp hch).2
    have hcq : c ≤ q := chain_le_last cs c q hrest
    simp only [List.cons_append, List.zip_cons_cons, List.flatMap_cons]
    exact ((ih c q hrest).append_left _).trans
      (filter_interval_split p0 c q h0c hcq l)

/-! ### Counting and checksum consequences -/

theorem keyInRange_some (t : TableSegment) (a b : Int)
    (ha : t.start_key = some a) (hb : t.end_key = some b) (r : Row) :
    t.keyInRange r = (decide (a ≤ rowKey r) && decide (rowKey r < b)) := by
  rw [TableSegment.keyInRange, ha, hb]

theorem get_values_some (t : TableSegment) (a b : Int)
    (ha : t.start_key = some a) (hb : t.end_key = some b) :
    t.get_values
      = t.rows.filter fun r => decide (a ≤ rowKey r) && decide (rowKey r < b) := by
  rw [TableSegment.get_values]
  exact List.filter_congr (fun r _ => keyInRange_some t a b ha hb r)

theorem length_le_width (l : List Row) (hnd : (l.map rowKey).Nodup) (a b : Int)
    (hab : a ≤ b)
    (hin : ∀ r ∈ l, a ≤ rowKey r ∧ rowKey r < b) :
    (l.length : Int) ≤ b - a := by
  have h1 : (l.map rowKey).toFinset ⊆ Finset.Ico a b := by
    intro k hk
    rw [List.mem_toFinset, List.mem_map] at hk
    obtain ⟨r, hr, hk⟩ := hk
    rw [Finset.mem_Ico, ← hk]
    exact hin r hr
  have h2 : (l.map rowKey).toFinset.card ≤ (Finset.Ico a b).card :=
    Finset.card_le_card h1
  rw [List.toFinset_card_of_nodup hnd, List.length_map, Int.card_Ico] at h2
  omega

theorem count_le_width (t : TableSegment) (a b : Int)
    (ha : t.start_key = some a) (hb : t.end_key = some b)
    (hab : a ≤ b) (hnd : (t.rows.map rowKey).Nodup) :
    (t.count_and_checksum.1 : Int) ≤ b - a := by
  rw [count_and_checksum_fst]
  refine length_le_width _ ?_ a b hab ?_
  · exact List.Nodup.sublist (List.Sublist.map rowKey (List.filter_sublist _)) hnd
  · intro r hr
    rw [List.mem_filter, keyInRange_some t a b ha hb] at hr
    exact (between_eq_true a b r).mp hr.2

theorem count_zero_get_values (t : TableSegment)
    (h : t.count_and_checksum.1 = 0) : t.get_values = [] := by
  rw [count_and_checksum_fst] at h
  rw [TableSegment.get_values]
  exact List.length_eq_zero.mp h

theorem checksum_eq_perm (t1 t2 : TableSegment)
    (hne : ¬ (t1.count_and_checksum.1 = 0 ∧ t2.count_and_checksum.1 = 0))
    (heq : t1.count_and_checksum.2 = t2.count_and_checksum.2) :
    t1.get_values.Perm t2.get_values := by
  by_cases h1 : t1.count_and_checksum.2 = none
  · have h2 : t2.count_and_checksum.2 = none := by
      rw [← heq]
      exact h1
    exact absurd ⟨(checksum_none_iff_count_zero t1).mp h1,
      (checksum_none_iff_count_zero t2).mp h2⟩ hne
  · rw [count_and_checksum_snd, count_and_checksum_snd] at heq
    rw [count_and_checksum_snd] at h1
    by_cases e1 : (t1.rows.filter t1.keyInRange).isEmpty
    · rw [if_pos e1] at h1
      exact absurd rfl h1
    · rw [if_neg e1] at heq
      by_cases e2 : (t2.rows.filter t2.keyInRange).isEmpty
      · rw [if_pos e2] at heq
        exact absurd heq (Option.some_ne_none _)
      · rw [if_neg e2] at heq
        rw [TableSegment.get_values, TableSegment.get_values]
        exact Multiset.coe_eq_coe.mp (Option.some.inj heq)

theorem symmDiffEvents_eq_nil_of_perm (u v : List Row) (h : u.Perm v) :
    symmDiffEvents u v = [] := by
  have h1 : plusRows u v = [] := by
    rw [plusRows]
    refine List.filter_eq_nil_iff.mpr ?_
    intro r hr
    rw [List.mem_dedup] at hr
    simp only [decide_eq_true_eq, Decidable.not_not]
    exact h.mem_iff.mp hr
  have h2 : plusRows v u = [] := by
    rw [plusRows]
    refine List.filter_eq_nil_iff.mpr ?_
    intro r hr
    rw [List.mem_dedup] at hr
    simp only [decide_eq_true_eq, Decidable.not_not]
    exact h.mem_iff.mpr hr
  rw [symmDiffEvents, h1, h2]
  rfl

/-! ### Checkpoint geometry -/

theorem floor_step_cast (a b : Int) (F : Nat) (hF : 2 ≤ F) :
    floor_step a b (F - 1) = (b - a + 1).fdiv (F : Int) := by
  rw [floor_step, Nat.cast_sub (by omega : 1 ≤ F)]
  norm_num

theorem takeWhile_map_range_ne_nil (g : Nat → Int) (p : Int → Bool) (n : Nat)
    (hn : 1 ≤ n) (h0 : p (g 0) = true) :
    ((List.range n).map g).takeWhile p ≠ [] := by
  obtain ⟨m, hm⟩ : ∃ m, n = m + 1 := ⟨n - 1, by omega⟩
  subst hm
  rw [List.range_succ_eq_map, List.map_cons, List.takeWhile_cons, if_pos h0]
  exact List.cons_ne_nil _ _

theorem checkpoints_facts (a b : Int) (F : Nat) (hF : 2 ≤ F)
    (hw : (F : Int) + 1 ≤ b - a) :
    1 ≤ floor_step a b (F - 1) ∧
    floor_step a b (F - 1) < b - a ∧
    floor_checkpoints a b (F - 1) ≠ [] ∧
    (∀ c ∈ floor_checkpoints a b (F - 1), a < c ∧ c < b) ∧
    (floor_checkpoints a b (F - 1)).Pairwise (fun x y : Int => x < y) := by
  have hF0 : (0 : Int) < (F : Int) := by exact_mod_cast (by omega : 0 < F)
  have hstep : 1 ≤ floor_step a b (F - 1) := by
    rw [floor_step_cast a b F hF, Int.fdiv_eq_ediv _ (by omega)]
    rw [Int.le_ediv_iff_mul_le hF0]
    omega
  have hmul : floor_step a b (F - 1) * (F : Int) ≤ b - a + 1 := by
    rw [floor_step_cast a b F hF, Int.fdiv_eq_ediv _ (by omega)]
    exact Int.ediv_mul_le _ (by omega)
  have h2F : floor_step a b (F - 1) * 2 ≤ floor_step a b (F - 1) * (F : Int) := by
    refine mul_le_mul_of_nonneg_left ?_ (by omega)
    exact_mod_cast hF
  have hlt : floor_step a b (F - 1) < b - a := by omega
  have hgmono : ∀ i j : Nat, i < j →
      a + ((i : Int) + 1) * floor_step a b (F - 1)
        < a + ((j : Int) + 1) * floor_step a b (F - 1) := by
    intro i j hij
    have hij' : (i : Int) + 1 < (j : Int) + 1 := by exact_mod_cast Nat.succ_lt_succ hij
    nlinarith
  have hmem : ∀ c ∈ floor_checkpoints a b (F - 1), a < c ∧ c < b := by
    intro c hc
    have hcb : c < b := by
      have := List.mem_takeWhile_imp hc
      simpa using this
    have hcs : c ∈ (List.range (F - 1)).map
        (fun i : Nat => a + ((i : Int) + 1) * floor_step a b (F - 1)) :=
      (List.takeWhile_sublist _).mem hc
    obtain ⟨i, _, hic⟩ := List.mem_map.mp hcs
    refine ⟨?_, hcb⟩
    rw [← hic]
    nlinarith [Int.natCast_nonneg i]
  have hpw : (floor_checkpoints a b (F - 1)).Pairwise (fun x y : Int => x < y) := by
    refine List.Pairwise.sublist (List.takeWhile_sublist _) ?_
    rw [List.pairwise_map]
    exact (List.pairwise_lt_range _).imp (fun h => by
      exact hgmono _ _ h)
  have hne : floor_checkpoints a b (F - 1) ≠ [] := by
    rw [floor_checkpoints]
    refine takeWhile_map_range_ne_nil _ _ _ (by omega) ?_
    simp only [Nat.cast_zero, zero_add, one_mul, decide_eq_true_eq]
    omega
  exact ⟨hstep, hlt, hne, hmem, hpw⟩

/-! ### Explicit segmentation -/

theorem segment_by_checkpoints_eq (s : TableSegment) (a b : Int) (cps : List Int)
    (ha : s.start_key = some a) (hb : s.end_key = some b)
    (hin : ∀ c ∈ cps, a ≤ c ∧ c < b)
    (hsorted : List.Sorted (fun x y : Int => x ≤ y) cps) :
    s.segment_by_checkpoints cps =
      some (((a :: (cps ++ [b])).zip (cps ++ [b])).map
        fun pq => { s with start_key := some pq.1, end_key := some pq.2 }) := by
  have hall : (cps.all fun c =>
      decide (s.start_key.getD 0 ≤ c) && decide (c < s.end_key.getD 0)) = true := by
    rw [List.all_eq_true]
    intro c hc
    rw [ha, hb]
    simp only [Option.getD_some, Bool.and_eq_true, decide_eq_true_eq]
    exact hin c hc
  rw [TableSegment.segment_by_checkpoints, hall]
  simp only [Bool.not_true, Bool.and_false, Bool.false_eq_true, if_false, ha, hb,
    hsorted.insertionSort_eq, List.tail_cons]
  have hX : (some a :: (cps.map some ++ [some b]) : List (Option Int))
      = (a :: (cps ++ [b])).map some := by
    simp
  have hY : (cps.map some ++ [some b] : List (Option Int))
      = (cps ++ [b]).map some := by
    simp
  rw [hX, hY, List.zip_map, List.map_map]
  rfl

theorem make_child_pairs_eq (d : TableDiffer) (t1 t2 : TableSegment) (a b : Int)
    (ha1 : t1.start_key = some a) (hb1 : t1.end_key = some b)
    (ha2 : t2.start_key = some a) (hb2 : t2.end_key = some b)
    (hF : 2 ≤ d.bisection_factor)
    (hw : (d.bisection_factor : Int) + 1 ≤ b - a) :
    TableDiffer.make_child_pairs d t1 t2 =
      some (((a :: (floor_checkpoints a b (d.bisection_factor - 1) ++ [b])).zip
          (floor_checkpoints a b (d.bisection_factor - 1) ++ [b])).map
        fun pq => (subseg t1 pq.1 pq.2, subseg t2 pq.1 pq.2)) := by
  obtain ⟨hstep, hlt, hne, hmem, hpw⟩ := checkpoints_facts a b _ hF hw
  have hcc : t1.choose_checkpoints (d.bisection_factor - 1)
      = some (floor_checkpoints a b (d.bisection_factor - 1)) := by
    rw [TableSegment.choose_checkpoints, ha1, hb1]
    exact split_space_eq_floor_checkpoints a b _ hstep
  have hsorted : List.Sorted (fun x y : Int => x ≤ y)
      (floor_checkpoints a b (d.bisection_factor - 1)) :=
    hpw.imp le_of_lt
  have hin : ∀ c ∈ floor_checkpoints a b (d.bisection_factor - 1),
      a ≤ c ∧ c < b :=
    fun c hc => ⟨le_of_lt (hmem c hc).1, (hmem c hc).2⟩
  have h1 := segment_by_checkpoints_eq t1 a b _ ha1 hb1 hin hsorted
  have h2 := segment_by_checkpoints_eq t2 a b _ ha2 hb2 hin hsorted
  simp only [TableDiffer.make_child_pairs, hcc, h1, h2]
  rw [if_pos (by simp)]
  rw [List.zip_map']
  rfl

/-! ### Per-level fan-out correctness -/

theorem flatMap_filter {β : Type} (q : Row → Bool) (f : β → List Row) :
    ∀ l : List β, (l.flatMap fun x => (f x).filter q) = (l.flatMap f).filter q := by
  intro l
  induction l with
  | nil => rfl
  | cons x xs ih => rw [List.flatMap_cons, List.flatMap_cons, List.filter_append, ih]

theorem run_pairs_ok (pf : TableSegment → TableSegment → Nat → DiffOutcome) :
    ∀ (ps : List (TableSegment × TableSegment)) (s : Nat) (acc : List Event),
      (∀ p ∈ ps, ∃ δ evp, (∀ u, pf p.1 p.2 u = .ok (u + δ) evp) ∧
        evp.Perm (symmDiffEvents p.1.get_values p.2.get_values)) →
      ∃ s' ev, TableDiffer.run_pairs pf ps s acc = .ok s' ev ∧
        ev.Perm (acc ++ ps.flatMap fun p =>
          symmDiffEvents p.1.get_values p.2.get_values) := by
  intro ps
  induction ps with
  | nil =>
    intro s acc _
    exact ⟨s, acc, rfl, by simp⟩
  | cons p ps ih =>
    intro s acc h
    obtain ⟨δ, evp, hpf, hperm⟩ := h p (by simp)
    rw [TableDiffer.run_pairs, hpf s]
    obtain ⟨s', ev, hrun, hev⟩ := ih (s + δ) (acc ++ evp)
      (fun q hq => h q (by simp [hq]))
    refine ⟨s', ev, hrun, ?_⟩
    refine hev.trans ?_
    rw [List.flatMap_cons, List.append_assoc]
    exact List.Perm.append_left acc (hperm.append_right _)

theorem build_chain_aux (a0 b0 : Int) :
    ∀ (cps : List Int) (x : Int), a0 < x → x ≤ b0 →
      cps.Pairwise (fun u v : Int => u < v) → (∀ c ∈ cps, x < c ∧ c < b0) →
      List.Chain (fun u v : Int =>
        u ≤ v ∧ a0 ≤ u ∧ v ≤ b0 ∧ (a0 < u ∨ v < b0)) x (cps ++ [b0]) := by
  intro cps
  induction cps with
  | nil =>
    intro x hax hxb _ _
    rw [List.nil_append]
    exact List.Chain.cons ⟨hxb, le_of_lt hax, le_refl b0, Or.inl hax⟩ List.Chain.nil
  | cons c cs ih =>
    intro x hax hxb hpw hmem
    rw [List.cons_append]
    refine List.Chain.cons ⟨le_of_lt (hmem c (by simp)).1, le_of_lt hax,
      le_of_lt (hmem c (by simp)).2, Or.inl hax⟩ ?_
    refine ih c (lt_trans hax (hmem c (by simp)).1)
      (le_of_lt (hmem c (by simp)).2) (List.pairwise_cons.mp hpw).2 ?_
    intro e he
    exact ⟨(List.pairwise_cons.mp hpw).1 e he, (hmem e (by simp [he])).2⟩

theorem build_chain (a b : Int) (cps : List Int)
    (hmem : ∀ c ∈ cps, a < c ∧ c < b)
    (hpw : cps.Pairwise (fun u v : Int => u < v)) (hne : cps ≠ []) :
    List.Chain (fun u v : Int =>
      u ≤ v ∧ a ≤ u ∧ v ≤ b ∧ (a < u ∨ v < b)) a (cps ++ [b]) := by
  obtain ⟨c0, cs, rfl⟩ := List.exists_cons_of_ne_nil hne
  rw [List.cons_append]
  refine List.Chain.cons ⟨le_of_lt (hmem c0 (by simp)).1, le_refl a,
    le_of_lt (hmem c0 (by simp)).2, Or.inr (hmem c0 (by simp)).2⟩ ?_
  refine build_chain_aux a b cs c0 (hmem c0 (by simp)).1
    (le_of_lt (hmem c0 (by simp)).2) (List.pairwise_cons.mp hpw).2 ?_
  intro e he
  exact ⟨(List.pairwise_cons.mp hpw).1 e he, (hmem e (by simp [he])).2⟩

theorem plusRows_filter_subrange (A B : List Row) (hndA : A.Nodup)
    (a b p q : Int) (hap : a ≤ p) (hqb : q ≤ b) :
    plusRows (A.filter fun r => decide (p ≤ rowKey r) && decide (rowKey r < q))
        (B.filter fun r => decide (p ≤ rowKey r) && decide (rowKey r < q))
      = (A.filter fun r => decide (p ≤ rowKey r) && decide (rowKey r < q)).filter
          fun r =>
            decide (r ∉ B.filter fun r' =>
              decide (a ≤ rowKey r') && decide (rowKey r' < b)) := by
  rw [plusRows, List.dedup_eq_self.mpr (List.Nodup.filter _ hndA)]
  refine List.filter_congr ?_
  intro r hr
  rw [List.mem_filter] at hr
  have hpq := (between_eq_true p q r).mp hr.2
  rw [decide_eq_decide, not_iff_not, List.mem_filter, List.mem_filter]
  constructor
  · rintro ⟨hB, _⟩
    exact ⟨hB, (between_eq_true a b r).mpr ⟨by omega, by omega⟩⟩
  · rintro ⟨hB, _⟩
    exact ⟨hB, hr.2⟩

theorem symmDiff_decomp (A B : List Row) (hndA : A.Nodup) (hndB : B.Nodup)
    (a b : Int) (cps : List Int)
    (hmem : ∀ c ∈ cps, a < c ∧ c < b)
    (hpw : cps.Pairwise (fun u v : Int => u < v)) (hne : cps ≠ []) :
    (((a :: (cps ++ [b])).zip (cps ++ [b])).flatMap fun pq =>
        symmDiffEvents
          (A.filter fun r => decide (pq.1 ≤ rowKey r) && decide (rowKey r < pq.2))
          (B.filter fun r =>
            decide (pq.1 ≤ rowKey r) && decide (rowKey r < pq.2))).Perm
      (symmDiffEvents
        (A.filter fun r => decide (a ≤ rowKey r) && decide (rowKey r < b))
        (B.filter fun r => decide (a ≤ rowKey r) && decide (rowKey r < b))) := by
  have hchain := build_chain a b cps hmem hpw hne
  have hfacts := chain_zip_mem (cps ++ [b]) a hchain
  have hchle : List.Chain (fun u v : Int => u ≤ v) a (cps ++ [b]) :=
    List.Chain.imp (fun _ _ h => h.1) hchain
  have hfun : ∀ pq ∈ (a :: (cps ++ [b])).zip (cps ++ [b]),
      symmDiffEvents
          (A.filter fun r => decide (pq.1 ≤ rowKey r) && decide (rowKey r < pq.2))
          (B.filter fun r => decide (pq.1 ≤ rowKey r) && decide (rowKey r < pq.2))
        = ((A.filter fun r =>
              decide (pq.1 ≤ rowKey r) && decide (rowKey r < pq.2)).filter fun r =>
                decide (r ∉ B.filter fun r' =>
                  decide (a ≤ rowKey r') && decide (rowKey r' < b))).map
            (fun r => (Sign.plus, r)) ++
          ((B.filter fun r =>
              decide (pq.1 ≤ rowKey r) && decide (rowKey r < pq.2)).filter fun r =>
                decide (r ∉ A.filter fun r' =>
                  decide (a ≤ rowKey r') && decide (rowKey r' < b))).map
            (fun r => (Sign.minus, r)) := by
    intro pq hpq
    obtain ⟨_, h1, h2, _⟩ := hfacts pq hpq
    rw [symmDiffEvents, plusRows_filter_subrange A B hndA a b pq.1 pq.2 h1 h2,
      plusRows_filter_subrange B A hndB a b pq.1 pq.2 h1 h2]
  rw [flatMap_congr_aux _ _ _ hfun]
  have hA := (chain_parts_perm A cps a b hchle).filter
    (fun r => decide (r ∉ B.filter fun r' =>
      decide (a ≤ rowKey r') && decide (rowKey r' < b)))
  have hB := (chain_parts_perm B cps a b hchle).filter
    (fun r => decide (r ∉ A.filter fun r' =>
      decide (a ≤ rowKey r') && decide (rowKey r' < b)))
  rw [symmDiffEvents, plusRows, plusRows,
    List.dedup_eq_self.mpr (List.Nodup.filter _ hndA),
    List.dedup_eq_self.mpr (List.Nodup.filter _ hndB)]
  refine (List.flatMap_append_perm _ _ _).symm.trans (List.Perm.append ?_ ?_)
  · rw [← List.map_flatMap, flatMap_filter]
    exact List.Perm.map _ hA
  · rw [← List.map_flatMap, flatMap_filter]
    exact List.Perm.map _ hB

/-! ### Main correctness of the bisection recursion -/


theorem subseg_count_le_width (t : TableSegment) (p q : Int) (hpq : p ≤ q)
    (hnd : (t.rows.map rowKey).Nodup) :
    ((subseg t p q).count_and_checksum.1 : Int) ≤ q - p :=
  count_le_width (subseg t p q) p q rfl rfl hpq hnd

theorem bisect_correct (d : TableDiffer) (hF : 2 ≤ d.bisection_factor)
    (hth : d.bisection_factor < d.bisection_threshold) :
    ∀ (fuel : Nat) (t1 t2 : TableSegment) (a b : Int) (level : Nat)
      (mr : Option Int) (s : Nat),
      t1.start_key = some a → t1.end_key = some b →
      t2.start_key = some a → t2.end_key = some b →
      (t1.rows.map rowKey).Nodup → (t2.rows.map rowKey).Nodup →
      (∀ m, mr = some m → m ≤ b - a) →
      (b - a).toNat < fuel →
      ∃ s' ev, TableDiffer.bisect_and_diff_tables d fuel t1 t2 level mr s
          = .ok s' ev ∧
        ev.Perm (symmDiffEvents t1.get_values t2.get_values) := by
  intro fuel
  induction fuel with
  | zero =>
    intro t1 t2 a b level mr s _ _ _ _ _ _ _ hfuel
    omega
  | succ fuel ih =>
    intro t1 t2 a b level mr s ha1 hb1 ha2 hb2 hnd1 hnd2 hmr hfuel
    rw [bisect_succ]
    have hbd : (!(t1.is_bounded && t2.is_bounded)) = false := by
      rw [TableSegment.is_bounded, TableSegment.is_bounded, ha1, hb1, ha2, hb2]
      rfl
    rw [hbd, if_neg Bool.false_ne_true]
    by_cases hleaf : mr.getD (t1.end_key.getD 0 - t1.start_key.getD 0)
        < (d.bisection_threshold : Int)
    · rw [if_pos hleaf]
      exact ⟨s, diff_sets t1.get_values t2.get_values, rfl, diff_sets_perm _ _⟩
    · rw [if_neg hleaf]
      have heffle : mr.getD (t1.end_key.getD 0 - t1.start_key.getD 0) ≤ b - a := by
        cases mr with
        | none =>
          rw [Option.getD_none, ha1, hb1, Option.getD_some, Option.getD_some]
        | some m =>
          rw [Option.getD_some]
          exact hmr m rfl
      have hthr : (d.bisection_threshold : Int) ≤ b - a :=
        le_trans (le_of_not_lt hleaf) heffle
      have hw : (d.bisection_factor : Int) + 1 ≤ b - a := by
        have hc : (d.bisection_factor : Int) + 1 ≤ (d.bisection_threshold : Int) := by
          exact_mod_cast hth
        omega
      rw [make_child_pairs_eq d t1 t2 a b ha1 hb1 ha2 hb2 hF hw]
      obtain ⟨hstep, hslt, hne, hmem, hpw⟩ :=
        checkpoints_facts a b d.bisection_factor hF hw
      have hps : ∀ p ∈ (((a ::
            (floor_checkpoints a b (d.bisection_factor - 1) ++ [b])).zip
            (floor_checkpoints a b (d.bisection_factor - 1) ++ [b])).map
              fun pq => (subseg t1 pq.1 pq.2, subseg t2 pq.1 pq.2)),
          ∃ δ evp, (∀ u, TableDiffer.diff_tables_pair
              (TableDiffer.bisect_and_diff_tables d fuel) p.1 p.2 (level + 1) u
                = .ok (u + δ) evp) ∧
            evp.Perm (symmDiffEvents p.1.get_values p.2.get_values) := by
        intro p hp
        rw [List.mem_map] at hp
        obtain ⟨pq, hpqZ, rfl⟩ := hp
        have hchainAll := build_chain a b _ hmem hpw hne
        obtain ⟨hle, haq, hqb, hstrict⟩ := chain_zip_mem _ a hchainAll pq hpqZ
        by_cases hzero : (subseg t1 pq.1 pq.2).count_and_checksum.1 = 0 ∧
            (subseg t2 pq.1 pq.2).count_and_checksum.1 = 0
        · refine ⟨0, [], ?_, ?_⟩
          · intro u
            have hn1 := (checksum_none_iff_count_zero _).mpr hzero.1
            have hn2 := (checksum_none_iff_count_zero _).mpr hzero.2
            simp only [TableDiffer.diff_tables_pair]
            rw [if_pos hzero, if_pos ⟨hn1, hn2⟩, Nat.add_zero]
          · rw [count_zero_get_values _ hzero.1, count_zero_get_values _ hzero.2]
            exact List.Perm.nil
        · by_cases heq : (subseg t1 pq.1 pq.2).count_and_checksum.2 =
              (subseg t2 pq.1 pq.2).count_and_checksum.2
          · refine ⟨if level + 1 = 1 then
                (subseg t1 pq.1 pq.2).count_and_checksum.1 else 0, [], ?_, ?_⟩
            · intro u
              simp only [TableDiffer.diff_tables_pair]
              rw [if_neg hzero, if_neg (not_not_intro heq)]
              by_cases hl : level + 1 = 1
              · rw [if_pos hl, if_pos hl]
              · rw [if_neg hl, if_neg hl, Nat.add_zero]
            · rw [symmDiffEvents_eq_nil_of_perm _ _ (checksum_eq_perm _ _ hzero heq)]
          · have hcnt1 := subseg_count_le_width t1 pq.1 pq.2 hle hnd1
            have hcnt2 := subseg_count_le_width t2 pq.1 pq.2 hle hnd2
            have hchildw : pq.2 - pq.1 < b - a := by
              rcases hstrict with h | h
              · omega
              · omega
            have hfuel' : (pq.2 - pq.1).toNat < fuel := by omega
            obtain ⟨δ0, evp, hb0, hbperm⟩ := ih
              (subseg t1 pq.1 pq.2) (subseg t2 pq.1 pq.2) pq.1 pq.2 (level + 1)
              (some ((max (subseg t1 pq.1 pq.2).count_and_checksum.1
                (subseg t2 pq.1 pq.2).count_and_checksum.1 : Nat) : Int)) 0
              rfl rfl rfl rfl hnd1 hnd2
              (by
                intro m hm
                rw [Option.some.injEq] at hm
                rw [← hm, Nat.cast_max]
                exact max_le hcnt1 hcnt2)
              hfuel'
            refine ⟨(if level + 1 = 1 then
                (subseg t1 pq.1 pq.2).count_and_checksum.1 else 0) + δ0,
              evp, ?_, hbperm⟩
            intro u
            simp only [TableDiffer.diff_tables_pair]
            rw [if_neg hzero, if_pos heq,
              bisect_shift d fuel _ _ (level + 1), hb0]
            by_cases hl : level + 1 = 1
            · rw [if_pos hl, if_pos hl]
              simp [shiftOutcome, Nat.add_assoc]
            · rw [if_neg hl, if_neg hl]
              simp [shiftOutcome]
      obtain ⟨s', ev, hrun, hperm⟩ := run_pairs_ok
        (fun x y u => TableDiffer.diff_tables_pair
          (TableDiffer.bisect_and_diff_tables d fuel) x y (level + 1) u)
        _ s [] hps
      refine ⟨s', ev, hrun, ?_⟩
      refine hperm.trans ?_
      rw [List.nil_append, List.flatMap_map]
      have hfun2 : ∀ pq ∈ (a ::
            (floor_checkpoints a b (d.bisection_factor - 1) ++ [b])).zip
            (floor_checkpoints a b (d.bisection_factor - 1) ++ [b]),
          symmDiffEvents (subseg t1 pq.1 pq.2).get_values
              (subseg t2 pq.1 pq.2).get_values
            = symmDiffEvents
              (t1.rows.filter fun r =>
                decide (pq.1 ≤ rowKey r) && decide (rowKey r < pq.2))
              (t2.rows.filter fun r =>
                decide (pq.1 ≤ rowKey r) && decide (rowKey r < pq.2)) := by
        intro pq _
        rw [get_values_some _ pq.1 pq.2 rfl rfl, get_values_some _ pq.1 pq.2 rfl rfl]
        exact rfl
      rw [flatMap_congr_aux _ _ _ hfun2,
        get_values_some t1 a b ha1 hb1, get_values_some t2 a b ha2 hb2]
      exact symmDiff_decomp t1.rows t2.rows
        (List.Nodup.of_map rowKey hnd1) (List.Nodup.of_map rowKey hnd2)
        a b _ hmem hpw hne

/-! ### Key-range discovery facts -/

theorem foldl_min_le (ks : List Int) :
    ∀ k : Int, ks.foldl min k ≤ k ∧ ∀ x ∈ ks, ks.foldl min k ≤ x := by
  induction ks with
  | nil =>
    intro k
    exact ⟨le_refl k, by simp⟩
  | cons c ks ih =>
    intro k
    rw [List.foldl_cons]
    obtain ⟨h1, h2⟩ := ih (min k c)
    refine ⟨le_trans h1 (min_le_left _ _), ?_⟩
    intro x hx
    rcases List.mem_cons.mp hx with h | h
    · rw [h]
      exact le_trans h1 (min_le_right _ _)
    · exact h2 x h

theorem le_foldl_max (ks : List Int) :
    ∀ k : Int, k ≤ ks.foldl max k ∧ ∀ x ∈ ks, x ≤ ks.foldl max k := by
  induction ks with
  | nil =>
    intro k
    exact ⟨le_refl k, by simp⟩
  | cons c ks ih =>
    intro k
    rw [List.foldl_cons]
    obtain ⟨h1, h2⟩ := ih (max k c)
    refine ⟨le_trans (le_max_left _ _) h1, ?_⟩
    intro x hx
    rcases List.mem_cons.mp hx with h | h
    · rw [h]
      exact le_trans (le_max_right _ _) h1
    · exact h2 x h

theorem query_key_range_bounds (t : TableSegment) (mn mx : Int)
    (h : t.query_key_range = some (mn, mx)) :
    ∀ r ∈ t.rows.filter t.keyInRange, mn ≤ rowKey r ∧ rowKey r ≤ mx := by
  rw [TableSegment.query_key_range] at h
  cases hm : (t.rows.filter t.keyInRange).map rowKey with
  | nil =>
    rw [hm] at h
    exact absurd h (by simp)
  | cons k ks =>
    rw [hm] at h
    have heq : (ks.foldl min k, ks.foldl max k) = (mn, mx) := Option.some.inj h
    have hmn : mn = ks.foldl min k := (congrArg Prod.fst heq).symm
    have hmx : mx = ks.foldl max k := (congrArg Prod.snd heq).symm
    intro r hr
    have hmem : rowKey r ∈ (t.rows.filter t.keyInRange).map rowKey :=
      List.mem_map_of_mem _ hr
    rw [hm, List.mem_cons] at hmem
    rcases hmem with hk | hk
    · rw [hmn, hmx, hk]
      exact ⟨(foldl_min_le ks k).1, (le_foldl_max ks k).1⟩
    · rw [hmn, hmx]
      exact ⟨(foldl_min_le ks k).2 _ hk, (le_foldl_max ks k).2 _ hk⟩

theorem filter_keyInRange_unbounded (rows : List Row) :
    rows.filter (TableSegment.keyInRange { rows := rows }) = rows := by
  refine List.filter_eq_self.mpr ?_
  intro r _
  rfl

/-! ### Claims C1 and C8 — end-to-end correctness and termination -/

/-- Claim C1 as frozen is false: it quantifies over all pairs of non-empty
tables, but when a table holds several rows with the same key, more rows than
integral keys can crowd into a unit-width range and the recursion aborts with
a `ValueError` (zero checkpoint step in `split_space`) instead of emitting the
symmetric difference — here four rows share key 5, the claim expects 4 diff
events, and `diff_tables` raises. -/
theorem claim_C1_counterexample :
    TableDiffer.diff_tables { bisection_factor := 3, bisection_threshold := 4 }
        { rows := [(5, [1]), (5, [2]), (5, [3]), (5, [4]), (9, [0])] }
        { rows := [(9, [0])] } 100 0 = .error ∧
      (symmDiffEvents [(5, [1]), (5, [2]), (5, [3]), (5, [4]), (9, [0])]
        [(9, [0])]).length = 4 := by
  exact ⟨by decide, by decide⟩

/-- Claim C1, amended with the per-table key-uniqueness the data model intends
(`keyColumn` is the primary ordering column): for every legal configuration
and every pair of non-empty tables whose rows have pairwise-distinct keys
within each table, `diff_tables` (with fuel beyond the discovered key-range
width) succeeds and its event stream is a permutation of the canonical
symmetric-difference list: exactly one `(+, r)` for each row of `A` missing
from `B`, exactly one `(-, r)` for the converse, nothing else, and the total
number of events is `|A △ B|`. -/
theorem claim_C1 (d : TableDiffer) (hf : 2 ≤ d.bisection_factor)
    (hth : d.bisection_factor < d.bisection_threshold)
    (A B : List Row) (hndA : (A.map rowKey).Nodup) (hndB : (B.map rowKey).Nodup)
    (mn1 mx1 mn2 mx2 : Int) (fuel s : Nat)
    (hq1 : TableSegment.query_key_range { rows := A } = some (mn1, mx1))
    (hq2 : TableSegment.query_key_range { rows := B } = some (mn2, mx2))
    (hfuel : (max mx1 mx2 + 1 - min mn1 mn2).toNat < fuel) :
    ∃ s' ev, d.diff_tables { rows := A } { rows := B } fuel s = .ok s' ev ∧
      ev.Perm (symmDiffEvents A B) ∧
      ev.length = (plusRows A B).length + (plusRows B A).length := by
  have hv1 : ¬ d.bisection_factor ≥ d.bisection_threshold := by omega
  have hv2 : ¬ d.bisection_factor < 2 := by omega
  rw [TableDiffer.diff_tables, if_neg hv1, if_neg hv2, hq1, hq2]
  obtain ⟨s', ev, hb, hperm⟩ := bisect_correct d hf hth fuel
    (subseg { rows := A } (min mn1 mn2) (max mx1 mx2 + 1))
    (subseg { rows := B } (min mn1 mn2) (max mx1 mx2 + 1))
    (min mn1 mn2) (max mx1 mx2 + 1) 0 none s rfl rfl rfl rfl hndA hndB
    (fun m hm => absurd hm (by simp)) hfuel
  have hbA := query_key_range_bounds _ mn1 mx1 hq1
  rw [filter_keyInRange_unbounded] at hbA
  have hbB := query_key_range_bounds _ mn2 mx2 hq2
  rw [filter_keyInRange_unbounded] at hbB
  have hgA : (subseg { rows := A } (min mn1 mn2) (max mx1 mx2 + 1)).get_values
      = A := by
    rw [get_values_some _ _ _ rfl rfl]
    refine List.filter_eq_self.mpr ?_
    intro r hr
    refine (between_eq_true _ _ r).mpr ?_
    obtain ⟨h1, h2⟩ := hbA r hr
    constructor
    · omega
    · omega
  have hgB : (subseg { rows := B } (min mn1 mn2) (max mx1 mx2 + 1)).get_values
      = B := by
    rw [get_values_some _ _ _ rfl rfl]
    refine List.filter_eq_self.mpr ?_
    intro r hr
    refine (between_eq_true _ _ r).mpr ?_
    obtain ⟨h1, h2⟩ := hbB r hr
    constructor
    · omega
    · omega
  rw [hgA, hgB] at hperm
  refine ⟨s', ev, hb, hperm, ?_⟩
  rw [hperm.length_eq, symmDiffEvents, List.length_append, List.length_map,
    List.length_map]

/-- Witness for `claim_C1`: a three-row versus three-row diff with one
insertion, one deletion and one update. -/
theorem claim_C1_witness :
    ∃ s' ev, TableDiffer.diff_tables
        { bisection_factor := 2, bisection_threshold := 3 }
        { rows := [(1, [10]), (2, [20]), (7, [70])] }
        { rows := [(1, [10]), (3, [30]), (7, [71])] } 100 0 = .ok s' ev ∧
      ev.Perm (symmDiffEvents [(1, [10]), (2, [20]), (7, [70])]
        [(1, [10]), (3, [30]), (7, [71])]) ∧
      ev.length = (plusRows [(1, [10]), (2, [20]), (7, [70])]
          [(1, [10]), (3, [30]), (7, [71])]).length +
        (plusRows [(1, [10]), (3, [30]), (7, [71])]
          [(1, [10]), (2, [20]), (7, [70])]).length :=
  claim_C1 { bisection_factor := 2, bisection_threshold := 3 } (by decide)
    (by decide) [(1, [10]), (2, [20]), (7, [70])]
    [(1, [10]), (3, [30]), (7, [71])] (by decide) (by decide)
    1 7 1 7 100 0 (by decide) (by decide) (by decide)

/-- Claim C8 as frozen is false: with duplicate keys on one side (four rows
share key 5), more rows than integral keys occupy the range `[5, 10)`, and the
recursion reaches a sub-range of unit width holding `count ≥ threshold` rows:
there the checkpoint step `(size + 1) // factor` is zero and the recursion
aborts with a `ValueError` instead of ever reaching the leaf materialization
path.  The configuration (factor 3 < threshold 4) is legal and both segments
are bounded over the same `[5, 10)`. -/
theorem claim_C8_counterexample :
    TableDiffer.bisect_and_diff_tables
        { bisection_factor := 3, bisection_threshold := 4 } 100
        { rows := [(5, [1]), (5, [2]), (5, [3]), (5, [4])],
          start_key := some 5, end_key := some 10 }
        { rows := [], start_key := some 5, end_key := some 10 } 0 none 0
      = .error := by
  decide

/-- Claim C8, amended with the per-table key-uniqueness the data model intends:
for every legal configuration and every pair of segments bounded over the same
`[startKey, endKey)` whose (integral) keys are pairwise distinct within each
side, the mutual recursion between bisect-and-diff and the per-pair comparison
terminates — with fuel beyond the key-range width the run finishes with a
clean `ok` outcome, reaching the leaf materialization path in every branch —
and at every per-pair recursion site the `maxRows` bound
`max(count1, count2)` is an upper bound on the rows present on each side of
that sub-range. -/
theorem claim_C8 (d : TableDiffer) (hf : 2 ≤ d.bisection_factor)
    (hth : d.bisection_factor < d.bisection_threshold)
    (t1 t2 : TableSegment) (a b : Int) (level fuel s : Nat)
    (ha1 : t1.start_key = some a) (hb1 : t1.end_key = some b)
    (ha2 : t2.start_key = some a) (hb2 : t2.end_key = some b)
    (hnd1 : (t1.rows.map rowKey).Nodup) (hnd2 : (t2.rows.map rowKey).Nodup)
    (hfuel : (b - a).toNat < fuel) :
    (∃ s' ev, TableDiffer.bisect_and_diff_tables d fuel t1 t2 level none s
      = .ok s' ev) ∧
    (∀ u1 u2 : TableSegment,
      u1.get_values.length
          ≤ max u1.count_and_checksum.1 u2.count_and_checksum.1 ∧
        u2.get_values.length
          ≤ max u1.count_and_checksum.1 u2.count_and_checksum.1) := by
  constructor
  · obtain ⟨s', ev, hb, _⟩ := bisect_correct d hf hth fuel t1 t2 a b level none s
      ha1 hb1 ha2 hb2 hnd1 hnd2 (fun m hm => absurd hm (by simp)) hfuel
    exact ⟨s', ev, hb⟩
  · intro u1 u2
    constructor
    · rw [show u1.get_values.length = u1.count_and_checksum.1 from rfl]
      exact le_max_left _ _
    · rw [show u2.get_values.length = u2.count_and_checksum.1 from rfl]
      exact le_max_right _ _

/-- Witness for `claim_C8`: a bounded two-row versus one-row pair over
`[0, 3)` with the minimal legal configuration. -/
theorem claim_C8_witness :
    (∃ s' ev, TableDiffer.bisect_and_diff_tables
        { bisection_factor := 2, bisection_threshold := 3 } 10
        { rows := [(1, [0]), (2, [0])], start_key := some 0, end_key := some 3 }
        { rows := [(2, [5])], start_key := some 0, end_key := some 3 } 0 none 0
      = .ok s' ev) ∧
    (∀ u1 u2 : TableSegment,
      u1.get_values.length
          ≤ max u1.count_and_checksum.1 u2.count_and_checksum.1 ∧
        u2.get_values.length
          ≤ max u1.count_and_checksum.1 u2.count_and_checksum.1) :=
  claim_C8 { bisection_factor := 2, bisection_threshold := 3 } (by decide)
    (by decide)
    { rows := [(1, [0]), (2, [0])], start_key := some 0, end_key := some 3 }
    { rows := [(2, [5])], start_key := some 0, end_key := some 3 }
    0 3 0 10 0 rfl rfl rfl rfl (by decide) (by decide) (by decide)
